import Mathlib

/-!
Verification of the minesweeper board engine (`src/game.rs`).

The Rust `Game` struct and its operations are shallowly embedded below.
Each indexing operation computes its linear cell index exactly as the
source does in 16-bit signed arithmetic: the `i16` product `y * width`
and sum `+ x` wrap around (`wrap16`) and the result is cast to `usize`
by sign extension (`usizeOfInt`, `i16Index`, `rowIndexU`).  Fallible
vector indexing (which panics in Rust on an out-of-bounds access) is
modelled with `Option`: a `none` result marks a panic.  The `while` loop
of the flood reveal is modelled with explicit fuel; `floodFuel` is
proved sufficient, so the fuel is an artefact of the embedding only.

Alongside the faithful operations there is a reference model (the
definitions suffixed `E`) in which the same operations compute the
linear index in unbounded exact integer arithmetic.  On any well-formed
board whose cell count `width·height` is at most `2^15 = 32768` the
16-bit computation never wraps for in-bounds coordinates, so each
faithful operation provably coincides with its exact-index reference
(the `..._agree` lemmas); the detailed correctness proofs are carried
out on the reference model and transported.  On larger boards the two
genuinely diverge — the source wraps and panics — which is why every
theorem about an indexing operation carries the cell-count bound.
-/

/-- The coarse game state, from `enum GameState` in `game.rs`. -/
inductive GameState where
  | Initial
  | Playing
  | Won
  | Lost
deriving DecidableEq, Repr

/-- Per-cell state, from `enum CellState` in `game.rs`.  The `Bool`
payload of `Unknown`/`Known`/`Flagged`/`Questioned` is the ground-truth
mine flag; `Counted` carries the neighbour count (`u8` in the source). -/
inductive CellState where
  | Unknown (mined : Bool)
  | Known (mined : Bool)
  | Flagged (mined : Bool)
  | Counted (n : Nat)
  | Questioned (mined : Bool)
deriving DecidableEq, Repr

/-- The board engine, from `struct Game` in `game.rs`.  `width`/`height`
are `i16` in the source (modelled as `Int`), `total`/`remaining` are
`u16` (modelled as `Nat`), and `field_state` is the row-major cell
vector. -/
structure Game where
  width : Int
  height : Int
  state : GameState
  field_state : List CellState
  total : Nat
  remaining : Nat
deriving DecidableEq, Repr

/-- Does the cell's current wrapper carry `mined = true` ground truth?
`Counted` cells are definitionally non-mined. -/
def groundMined : CellState → Bool
  | .Unknown b => b
  | .Known b => b
  | .Flagged b => b
  | .Questioned b => b
  | .Counted _ => false

/-- The three wrapper variants that `neighbor_count` counts as a mine:
`Unknown(true)`, `Questioned(true)`, `Flagged(true)` (a revealed mine
`Known(true)` is not counted by the source). -/
def countedAsMine (c : CellState) : Bool :=
  c = .Unknown true ∨ c = .Questioned true ∨ c = .Flagged true

/-- Structural well-formedness of a `Game` value: dimensions are positive
`i16` values and the cell vector has exactly `width·height` entries. -/
def Game.Wf (g : Game) : Prop :=
  0 < g.width ∧ g.width < 32768 ∧ 0 < g.height ∧ g.height < 32768 ∧
    g.field_state.length = (g.width * g.height).toNat

instance (g : Game) : Decidable g.Wf := by
  unfold Game.Wf; infer_instance

/-- The in-bounds predicate of the spec: `0 ≤ x < width ∧ 0 ≤ y < height`. -/
def inBounds (g : Game) (p : Int × Int) : Prop :=
  0 ≤ p.1 ∧ p.1 < g.width ∧ 0 ≤ p.2 ∧ p.2 < g.height

instance (g : Game) (p : Int × Int) : Decidable (inBounds g p) := by
  unfold inBounds; infer_instance

-- Exact-index reference model.  The definitions suffixed `E` mirror the
-- faithful operations below but compute every linear index in unbounded
-- exact `Int` arithmetic.  They are proof scaffolding only: the
-- `..._agree` lemmas show each faithful operation coincides with its `E`
-- twin on well-formed boards with at most 2^15 cells (where the 16-bit
-- arithmetic never wraps at in-bounds coordinates), and every claim
-- theorem is stated about the faithful operations.

/-- Reference read of `field_state[i]` at an exact integer index.  A
negative or too-large index yields `none`. -/
def Game.readIdxE (g : Game) (i : Int) : Option CellState :=
  if i < 0 then none else g.field_state.get? i.toNat

/-- Reference write `field_state[i] = c` at an exact integer index;
`none` on out-of-bounds. -/
def Game.writeIdxE (g : Game) (i : Int) (c : CellState) : Option Game :=
  if i < 0 ∨ g.field_state.length ≤ i.toNat then none
  else some { g with field_state := g.field_state.set i.toNat c }

/-- Reference cell read at the exact index `y * width + x`. -/
def Game.cellAtE (g : Game) (x y : Int) : Option CellState :=
  g.readIdxE (y * g.width + x)

/-- Reference model of `Game::cell_state`. -/
def Game.cell_stateE (g : Game) (x y : Int) : Option CellState :=
  g.cellAtE x y

/-- Reference model of `Game::is_mined` — true only for `Unknown(true)`
or `Known(true)`. -/
def Game.is_minedE (g : Game) (x y : Int) : Option Bool := do
  let c ← g.cellAtE x y
  pure (c = .Unknown true ∨ c = .Known true : Bool)

/-- `Game::remaining`. -/
def Game.remainingCount (g : Game) : Nat := g.remaining

/-- The eight neighbour offsets of the 3×3 scan, centre excluded. -/
def nbrOffsets : List (Int × Int) :=
  [(-1, -1), (0, -1), (1, -1), (-1, 0), (1, 0), (-1, 1), (0, 1), (1, 1)]

/-- The eight lattice neighbours of a coordinate. -/
def nbrs (p : Int × Int) : List (Int × Int) :=
  nbrOffsets.map (fun d => (p.1 + d.1, p.2 + d.2))

/-- Reference scan row: columns `x-1..=x+1`, skipping `x_idx < 0`,
`x_idx == width`, and the centre cell, with the centre-skip comparison
at exact integer indices. -/
def Game.scanRowE (g : Game) (x y yi : Int) : List (Int × Int) :=
  ([x - 1, x, x + 1].filter
      (fun xi => decide (¬(xi < 0 ∨ xi = g.width) ∧
        yi * g.width + xi ≠ y * g.width + x))).map (fun xi => (xi, yi))

/-- Reference 3×3 scan order: rows `y-1..=y+1`, skipping `y_idx < 0` and
`y_idx == height`. -/
def Game.scanListE (g : Game) (x y : Int) : List (Int × Int) :=
  ([y - 1, y, y + 1].filter
      (fun yi => decide (¬(yi < 0 ∨ yi = g.height)))).flatMap
    (fun yi => g.scanRowE x y yi)

/-- Reference accumulator loop of `Game::neighbor_count`, reading at
exact integer indices. -/
def countScanE (g : Game) : List (Int × Int) → Nat → Option Nat
  | [], acc => some acc
  | p :: ps, acc =>
    match g.readIdxE (p.2 * g.width + p.1) with
    | none => none
    | some c => countScanE g ps (if countedAsMine c then acc + 1 else acc)

/-- Reference model of `Game::neighbor_count`. -/
def Game.neighbor_countE (g : Game) (x y : Int) : Option Nat :=
  countScanE g (g.scanListE x y) 0

/-- Reference neighbour push scan of the flood loop, reading at exact
integer indices. -/
def pushScanE (g : Game) : List (Int × Int) → List (Int × Int) → Option (List (Int × Int))
  | [], acc => some acc
  | p :: ps, acc =>
    match g.readIdxE (p.2 * g.width + p.1) with
    | none => none
    | some c => pushScanE g ps (if c = .Unknown false then acc ++ [p] else acc)

/-- Reference list of scanned neighbours of (x, y) currently in state
`Unknown(false)`, in scan order. -/
def Game.unknownNeighborsE (g : Game) (x y : Int) : Option (List (Int × Int)) :=
  pushScanE g (g.scanListE x y) []

/-- Reference model of `Game::flag`. -/
def Game.flagE (g : Game) (x y : Int) : Option Game :=
  match g.readIdxE (y * g.width + x) with
  | none => none
  | some c =>
    let g1 : Game :=
      match c with
      | .Unknown m | .Questioned m =>
        { g with
          field_state := g.field_state.set (y * g.width + x).toNat (.Flagged m),
          remaining := if 0 < g.remaining then g.remaining - 1 else g.remaining }
      | _ => g
    some { g1 with state := .Playing }

/-- Reference model of `Game::question`. -/
def Game.questionE (g : Game) (x y : Int) : Option Game :=
  match g.readIdxE (y * g.width + x) with
  | none => none
  | some c =>
    let g1 : Game :=
      match c with
      | .Unknown m =>
        { g with field_state := g.field_state.set (y * g.width + x).toNat (.Questioned m) }
      | .Flagged m =>
        { g with
          field_state := g.field_state.set (y * g.width + x).toNat (.Questioned m),
          remaining := g.remaining + 1 }
      | _ => g
    some { g1 with state := .Playing }

/-- Reference model of `Game::set_unknown`. -/
def Game.set_unknownE (g : Game) (x y : Int) : Option Game :=
  match g.readIdxE (y * g.width + x) with
  | none => none
  | some c =>
    match c with
    | .Flagged m =>
      some { g with
        field_state := g.field_state.set (y * g.width + x).toNat (.Unknown m),
        remaining := g.remaining + 1 }
    | .Known m | .Questioned m =>
      some { g with field_state := g.field_state.set (y * g.width + x).toNat (.Unknown m) }
    | .Counted _ =>
      some { g with field_state := g.field_state.set (y * g.width + x).toNat (.Unknown false) }
    | .Unknown _ => some g

/-- `Game::show_mined` — sweep every `Unknown(true)` to `Known(true)`. -/
def Game.show_mined (g : Game) : Game :=
  { g with
    field_state := g.field_state.map (fun c => if c = .Unknown true then .Known true else c) }

/-- The `usize` cast of an integer value (two's-complement, 64-bit). -/
def usizeOfInt (v : Int) : Nat := (v % 18446744073709551616).toNat

/-- `Game::clear` — wipe the vector and push `width·height` fresh
`Unknown(false)` cells; also resets `state` to `Initial` (the source does
this explicitly). -/
def Game.clear (g : Game) : Game :=
  { g with
    field_state :=
      List.replicate ((usizeOfInt g.width * usizeOfInt g.height) % 18446744073709551616)
        (.Unknown false),
    state := .Initial }

/-- Fuel for the flood-reveal work-stack loop; proved sufficient below
(`floodLoop_master`). -/
def floodFuel (g : Game) : Nat := 34 * g.field_state.length + 3

/-- Reference model of the flood-reveal work-stack loop of
`Game::uncover`: pop a coordinate, recompute its neighbour count; on
zero mark it `Known(false)` and push every scanned neighbour still
exactly `Unknown(false)`; otherwise mark it `Counted(count)`.  The list
is used as a LIFO stack with its head as the top (pushes of one scan are
therefore consed in scan order, so the last scanned neighbour is popped
first, exactly as with `Vec::push`/`Vec::pop`). -/
def floodLoopE : Game → List (Int × Int) → Nat → Option Game
  | g, [], _ => some g
  | _, _ :: _, 0 => none
  | g, (x, y) :: rest, fuel + 1 =>
    match g.neighbor_countE x y with
    | none => none
    | some count =>
      if count = 0 then
        match g.writeIdxE (y * g.width + x) (.Known false) with
        | none => none
        | some g1 =>
          match g1.unknownNeighborsE x y with
          | none => none
          | some pushes => floodLoopE g1 (pushes.reverse ++ rest) fuel
      else
        match g.writeIdxE (y * g.width + x) (.Counted count) with
        | none => none
        | some g1 => floodLoopE g1 rest fuel

/-- Reference model of `Game::uncover`. -/
def Game.uncoverE (g : Game) (x y : Int) : Option (Game × GameState) :=
  if g.state = .Lost then some (g, g.state)
  else
    let g1 : Game := { g with state := .Playing }
    match g1.readIdxE (y * g1.width + x) with
    | none => none
    | some c =>
      match c with
      | .Questioned false | .Flagged false | .Unknown false =>
        match g1.neighbor_countE x y with
        | none => none
        | some count =>
          if count ≠ 0 then
            match g1.writeIdxE (y * g1.width + x) (.Counted count) with
            | none => none
            | some g2 => some (g2, g2.state)
          else
            match floodLoopE g1 [(x, y)] (floodFuel g1) with
            | none => none
            | some g2 => some (g2, g2.state)
      | .Questioned true | .Flagged true | .Unknown true =>
        match g1.writeIdxE (y * g1.width + x) (.Known true) with
        | none => none
        | some g2 => some ({ g2 with state := .Lost }, GameState.Lost)
      | _ => some (g1, g1.state)

/-- A player command at a coordinate (the mutating interface of the
engine used by the presentation layer). -/
inductive Cmd where
  | uncover (x y : Int)
  | flag (x y : Int)
  | question (x y : Int)
  | set_unknown (x y : Int)
  | show_mined
deriving DecidableEq, Repr

/-- Reference model of running one command (result-state of `uncover` is
discarded). -/
def applyCmdE (g : Game) : Cmd → Option Game
  | .uncover x y => (g.uncoverE x y).map (fun r => r.1)
  | .flag x y => g.flagE x y
  | .question x y => g.questionE x y
  | .set_unknown x y => g.set_unknownE x y
  | .show_mined => some g.show_mined

/-- Reference model of running a command sequence left to right. -/
def runCmdsE (g : Game) : List Cmd → Option Game
  | [] => some g
  | c :: cs =>
    match applyCmdE g c with
    | none => none
    | some g1 => runCmdsE g1 cs

/-- The coordinate a command addresses, if any. -/
def Cmd.coord : Cmd → Option (Int × Int)
  | .uncover x y => some (x, y)
  | .flag x y => some (x, y)
  | .question x y => some (x, y)
  | .set_unknown x y => some (x, y)
  | .show_mined => none

/-- All coordinates of a command are in bounds for `g`. -/
def Cmd.inB (c : Cmd) (g : Game) : Prop :=
  ∀ p, c.coord = some p → inBounds g p

instance (c : Cmd) (g : Game) : Decidable (c.inB g) :=
  match hc : c.coord with
  | none => isTrue (fun p hp => by rw [hc] at hp; exact Option.noConfusion hp)
  | some q =>
    if h : inBounds g q then
      isTrue (fun p hp => by
        rw [hc] at hp
        obtain rfl := Option.some.inj hp
        exact h)
    else isFalse (fun hall => h (hall q hc))

/-- 16-bit two's-complement wrap-around: the value an `i16` addition or
multiplication produces in release mode. -/
def wrap16 (v : Int) : Int := (v + 32768) % 65536 - 32768

/-- The linear index `(y * width + x) as usize` exactly as the source
computes it in 16-bit arithmetic: the `i16` product `y * width` wraps,
the `i16` addition `+ x` wraps, and the result is cast to `usize`
(sign-extended two's complement). -/
def i16Index (w x y : Int) : Nat := usizeOfInt (wrap16 (wrap16 (y * w) + x))

/-- The resample-on-collision inner loop of `Game::reset`: draw random
cells (`picks` is the stream of random draws, reduced mod the cell
count) until one is found that is not already `Unknown(true)`.  The
source's `while` has no bound; `fuel` makes the model total, with `none`
meaning the loop did not finish within `fuel` draws. -/
def resample (picks : Nat → Nat) (cells : List CellState) : Nat → Nat → Option (Nat × Nat)
  | _, 0 => none
  | pos, fuel + 1 =>
    let c := picks pos % cells.length
    if cells.get? c = some (.Unknown true) then resample picks cells (pos + 1) fuel
    else some (c, pos + 1)

/-- The mine-placement loop of `Game::reset`: place `mines` mines, each
by resampling until an unmined cell is drawn.  `none` means some inner
resample loop failed to finish within `fuel` draws; a result of `none`
for every `fuel` is genuine nontermination of the source loop. -/
def placeMines (picks : Nat → Nat) : Nat → Nat → Nat → List CellState → Option (List CellState)
  | _, 0, _, cells => some cells
  | pos, m + 1, fuel, cells =>
    match resample picks cells pos fuel with
    | none => none
    | some (c, pos1) => placeMines picks pos1 m fuel (cells.set c (.Unknown true))

-- ### The faithful operations: every linear index is computed exactly as
-- the source's 16-bit arithmetic does, panics modelled as `none`.

/-- The index `row_idx + x_idx as usize` used by the 3×3 scans of
`Game::neighbor_count` and the flood loop: the row index
`(y_idx * self.width) as usize` (the `i16` product wraps, the cast sign
extends) plus the sign-extending cast of the column, added in `usize`
(wrapping modulo `2^64`). -/
def rowIndexU (w yi xi : Int) : Nat :=
  (usizeOfInt (wrap16 (yi * w)) + usizeOfInt xi) % 18446744073709551616

/-- The cell at (x, y): `field_state[(y * width + x) as usize]`, with the
index computed in the source's 16-bit arithmetic. -/
def Game.cellAt (g : Game) (x y : Int) : Option CellState :=
  g.field_state.get? (i16Index g.width x y)

/-- `Game::cell_state` — direct read of the cell wrapper. -/
def Game.cell_state (g : Game) (x y : Int) : Option CellState :=
  g.cellAt x y

/-- `Game::is_mined` — true only for `Unknown(true)` or `Known(true)`. -/
def Game.is_mined (g : Game) (x y : Int) : Option Bool := do
  let c ← g.cellAt x y
  pure (c = .Unknown true ∨ c = .Known true : Bool)

/-- One row of the 3×3 neighbour scan of `Game::neighbor_count` /
`Game::uncover`: columns `x-1..=x+1`, skipping `x_idx < 0`,
`x_idx == width`, and the centre cell — the source compares the linear
`usize` indices `row_idx + x_idx as usize` and
`(y * self.width + x) as usize`. -/
def Game.scanRow (g : Game) (x y yi : Int) : List (Int × Int) :=
  ([x - 1, x, x + 1].filter
      (fun xi => decide (¬(xi < 0 ∨ xi = g.width) ∧
        rowIndexU g.width yi xi ≠ i16Index g.width x y))).map (fun xi => (xi, yi))

/-- The full 3×3 scan order of the source: rows `y-1..=y+1`, skipping
`y_idx < 0` and `y_idx == height`. -/
def Game.scanList (g : Game) (x y : Int) : List (Int × Int) :=
  ([y - 1, y, y + 1].filter
      (fun yi => decide (¬(yi < 0 ∨ yi = g.height)))).flatMap
    (fun yi => g.scanRow x y yi)

/-- The accumulator loop of `Game::neighbor_count`: read each scanned
cell (at its wrapped `usize` index) and count the mine wrappers. -/
def countScan (g : Game) : List (Int × Int) → Nat → Option Nat
  | [], acc => some acc
  | p :: ps, acc =>
    match g.field_state.get? (rowIndexU g.width p.2 p.1) with
    | none => none
    | some c => countScan g ps (if countedAsMine c then acc + 1 else acc)

/-- `Game::neighbor_count`. -/
def Game.neighbor_count (g : Game) (x y : Int) : Option Nat :=
  countScan g (g.scanList x y) 0

/-- The neighbour push scan of the flood loop in `Game::uncover`: collect
(in scan order) every scanned neighbour that is exactly `Unknown(false)`. -/
def pushScan (g : Game) : List (Int × Int) → List (Int × Int) → Option (List (Int × Int))
  | [], acc => some acc
  | p :: ps, acc =>
    match g.field_state.get? (rowIndexU g.width p.2 p.1) with
    | none => none
    | some c => pushScan g ps (if c = .Unknown false then acc ++ [p] else acc)

/-- All scanned neighbours of (x, y) currently in state `Unknown(false)`,
in scan order. -/
def Game.unknownNeighbors (g : Game) (x y : Int) : Option (List (Int × Int)) :=
  pushScan g (g.scanList x y) []

/-- `Game::flag`. -/
def Game.flag (g : Game) (x y : Int) : Option Game :=
  match g.field_state.get? (i16Index g.width x y) with
  | none => none
  | some c =>
    let g1 : Game :=
      match c with
      | .Unknown m | .Questioned m =>
        { g with
          field_state := g.field_state.set (i16Index g.width x y) (.Flagged m),
          remaining := if 0 < g.remaining then g.remaining - 1 else g.remaining }
      | _ => g
    some { g1 with state := .Playing }

/-- `Game::question`. -/
def Game.question (g : Game) (x y : Int) : Option Game :=
  match g.field_state.get? (i16Index g.width x y) with
  | none => none
  | some c =>
    let g1 : Game :=
      match c with
      | .Unknown m =>
        { g with field_state := g.field_state.set (i16Index g.width x y) (.Questioned m) }
      | .Flagged m =>
        { g with
          field_state := g.field_state.set (i16Index g.width x y) (.Questioned m),
          remaining := g.remaining + 1 }
      | _ => g
    some { g1 with state := .Playing }

/-- `Game::set_unknown`.  Note: unlike `flag`/`question`/`uncover`, the
source never touches `self.state` here. -/
def Game.set_unknown (g : Game) (x y : Int) : Option Game :=
  match g.field_state.get? (i16Index g.width x y) with
  | none => none
  | some c =>
    match c with
    | .Flagged m =>
      some { g with
        field_state := g.field_state.set (i16Index g.width x y) (.Unknown m),
        remaining := g.remaining + 1 }
    | .Known m | .Questioned m =>
      some { g with field_state := g.field_state.set (i16Index g.width x y) (.Unknown m) }
    | .Counted _ =>
      some { g with field_state := g.field_state.set (i16Index g.width x y) (.Unknown false) }
    | .Unknown _ => some g

/-- Write `field_state[i] = c` at an already-computed `usize` index;
`none` models the out-of-bounds panic. -/
def Game.writeIdxU (g : Game) (i : Nat) (c : CellState) : Option Game :=
  if g.field_state.length ≤ i then none
  else some { g with field_state := g.field_state.set i c }

/-- The flood-reveal work-stack loop of `Game::uncover`, with all cell
indices computed in the source's 16-bit/`usize` arithmetic: pop a
coordinate, recompute its neighbour count; on zero mark it
`Known(false)` and push every scanned neighbour still exactly
`Unknown(false)`; otherwise mark it `Counted(count)`.  The list is used
as a LIFO stack with its head as the top, exactly as with
`Vec::push`/`Vec::pop`. -/
def floodLoop : Game → List (Int × Int) → Nat → Option Game
  | g, [], _ => some g
  | _, _ :: _, 0 => none
  | g, (x, y) :: rest, fuel + 1 =>
    match g.neighbor_count x y with
    | none => none
    | some count =>
      if count = 0 then
        match g.writeIdxU (i16Index g.width x y) (.Known false) with
        | none => none
        | some g1 =>
          match g1.unknownNeighbors x y with
          | none => none
          | some pushes => floodLoop g1 (pushes.reverse ++ rest) fuel
      else
        match g.writeIdxU (i16Index g.width x y) (.Counted count) with
        | none => none
        | some g1 => floodLoop g1 rest fuel

/-- `Game::uncover`. -/
def Game.uncover (g : Game) (x y : Int) : Option (Game × GameState) :=
  if g.state = .Lost then some (g, g.state)
  else
    let g1 : Game := { g with state := .Playing }
    match g1.field_state.get? (i16Index g1.width x y) with
    | none => none
    | some c =>
      match c with
      | .Questioned false | .Flagged false | .Unknown false =>
        match g1.neighbor_count x y with
        | none => none
        | some count =>
          if count ≠ 0 then
            match g1.writeIdxU (i16Index g1.width x y) (.Counted count) with
            | none => none
            | some g2 => some (g2, g2.state)
          else
            match floodLoop g1 [(x, y)] (floodFuel g1) with
            | none => none
            | some g2 => some (g2, g2.state)
      | .Questioned true | .Flagged true | .Unknown true =>
        match g1.writeIdxU (i16Index g1.width x y) (.Known true) with
        | none => none
        | some g2 => some ({ g2 with state := .Lost }, GameState.Lost)
      | _ => some (g1, g1.state)

/-- Run one command (result-state of `uncover` is discarded). -/
def applyCmd (g : Game) : Cmd → Option Game
  | .uncover x y => (g.uncover x y).map (fun r => r.1)
  | .flag x y => g.flag x y
  | .question x y => g.question x y
  | .set_unknown x y => g.set_unknown x y
  | .show_mined => some g.show_mined

/-- Run a command sequence left to right. -/
def runCmds (g : Game) : List Cmd → Option Game
  | [] => some g
  | c :: cs =>
    match applyCmd g c with
    | none => none
    | some g1 => runCmds g1 cs

/-- Reference-model variant of the spec-side neighbour-mine count. -/
def Game.groundCountE (g : Game) (x y : Int) : Nat :=
  ((nbrs (x, y)).filter
      (fun q => decide (inBounds g q) &&
        ((g.cellAtE q.1 q.2).map groundMined == some true))).length

/-- Reference-model variant of `zeroCell`. -/
def zeroCellE (g : Game) (p : Int × Int) : Prop :=
  inBounds g p ∧ g.neighbor_countE p.1 p.2 = some 0 ∧
    (g.cellAtE p.1 p.2).map groundMined = some false

instance (g : Game) (p : Int × Int) : Decidable (zeroCellE g p) := by
  unfold zeroCellE; infer_instance

/-- `R` is listed starting at `s`, and every later entry is adjacent to
some earlier entry: a connectivity certificate for the region list. -/
def ChainedFrom (s : Int × Int) (R : List (Int × Int)) : Prop :=
  R.head? = some s ∧
    ∀ i : Fin R.length, 0 < (i : Nat) →
      ∃ j : Fin R.length, (j : Nat) < (i : Nat) ∧ R.get i ∈ nbrs (R.get j)

instance (s : Int × Int) (R : List (Int × Int)) : Decidable (ChainedFrom s R) := by
  unfold ChainedFrom; infer_instance

/-- Reference-model variant of `RegionClosed`. -/
def RegionClosedE (g : Game) (R : List (Int × Int)) : Prop :=
  ∀ p ∈ R, ∀ q ∈ nbrs p, inBounds g q → zeroCellE g q → q ∈ R

instance (g : Game) (R : List (Int × Int)) : Decidable (RegionClosedE g R) := by
  unfold RegionClosedE; infer_instance

/-- Reference-model variant of `RegionSpec`. -/
def RegionSpecE (g : Game) (s : Int × Int) (R : List (Int × Int)) : Prop :=
  ChainedFrom s R ∧ (∀ p ∈ R, zeroCellE g p) ∧ RegionClosedE g R

instance (g : Game) (s : Int × Int) (R : List (Int × Int)) :
    Decidable (RegionSpecE g s R) := by
  unfold RegionSpecE; infer_instance

/-- A cell bordering the region `R`: in bounds, not in `R`, adjacent to
some cell of `R`. -/
def IsBorder (g : Game) (R : List (Int × Int)) (q : Int × Int) : Prop :=
  inBounds g q ∧ q ∉ R ∧ ∃ r ∈ R, q ∈ nbrs r

instance (g : Game) (R : List (Int × Int)) (q : Int × Int) :
    Decidable (IsBorder g R q) := by
  unfold IsBorder; infer_instance

/-- Reference-model variant of `ReachZero`. -/
def ReachZeroE (g : Game) (s q : Int × Int) : Prop :=
  Relation.ReflTransGen (fun a b => b ∈ nbrs a ∧ zeroCellE g b) s q

-- ### Spec-side predicates over the faithful operations

/-- Spec-side neighbour-mine count: the number of the up-to-8 in-bounds
surrounding cells whose ground truth is mined. -/
def Game.groundCount (g : Game) (x y : Int) : Nat :=
  ((nbrs (x, y)).filter
      (fun q => decide (inBounds g q) &&
        ((g.cellAt q.1 q.2).map groundMined == some true))).length

/-- A safe cell with zero neighbour count (the cells of a flood region). -/
def zeroCell (g : Game) (p : Int × Int) : Prop :=
  inBounds g p ∧ g.neighbor_count p.1 p.2 = some 0 ∧
    (g.cellAt p.1 p.2).map groundMined = some false

instance (g : Game) (p : Int × Int) : Decidable (zeroCell g p) := by
  unfold zeroCell; infer_instance

/-- `R` is closed under adjacency among zero-count safe cells. -/
def RegionClosed (g : Game) (R : List (Int × Int)) : Prop :=
  ∀ p ∈ R, ∀ q ∈ nbrs p, inBounds g q → zeroCell g q → q ∈ R

instance (g : Game) (R : List (Int × Int)) : Decidable (RegionClosed g R) := by
  unfold RegionClosed; infer_instance

/-- `R` is exactly a maximal 8-connected region of zero-count safe cells
containing `s`: every listed cell is a zero cell, the list is connected
to `s`, and it is adjacency-closed. -/
def RegionSpec (g : Game) (s : Int × Int) (R : List (Int × Int)) : Prop :=
  ChainedFrom s R ∧ (∀ p ∈ R, zeroCell g p) ∧ RegionClosed g R

instance (g : Game) (s : Int × Int) (R : List (Int × Int)) :
    Decidable (RegionSpec g s R) := by
  unfold RegionSpec; infer_instance

/-- Reachability from `s` through zero-count safe cells (8-adjacency):
the defining property of the maximal flood region. -/
def ReachZero (g : Game) (s q : Int × Int) : Prop :=
  Relation.ReflTransGen (fun a b => b ∈ nbrs a ∧ zeroCell g b) s q

/-- Proof-side total read of a cell (only used under hypotheses that make
the cell exist). -/
def Game.cellD (g : Game) (p : Int × Int) : CellState :=
  (g.cellAtE p.1 p.2).getD (.Unknown false)

/-- The in-place cell rewrite the flood loop performs at a popped
coordinate (the successful case of `writeIdx`). -/
def Game.mark (g : Game) (p : Int × Int) (c : CellState) : Game :=
  { g with field_state := g.field_state.set (p.2 * g.width + p.1).toNat c }

/-- The list of coordinates the flood loop pushes after marking `p`
(the successful case of `unknownNeighbors`). -/
def Game.pushesAt (g : Game) (p : Int × Int) : List (Int × Int) :=
  (g.scanListE p.1 p.2).filter (fun q => decide (g.cellD q = .Unknown false))

/-- Number of cells currently in state `Unknown(false)`. -/
def uCount (g : Game) : Nat :=
  g.field_state.countP (fun c => decide (c = CellState.Unknown false))

/-- Termination measure of the flood loop. -/
def floodMeasure (g : Game) (stack : List (Int × Int)) : Nat :=
  17 * uCount g + stack.length

/-- Invariant of the flood loop used for the generic termination /
frame argument: dimensions, counters and phase are unchanged, the
ground-truth mine map is untouched, and every stacked coordinate is an
in-bounds non-mined cell. -/
structure FloodFrame (g0 g : Game) (stack : List (Int × Int)) : Prop where
  width_eq : g.width = g0.width
  height_eq : g.height = g0.height
  state_eq : g.state = g0.state
  remaining_eq : g.remaining = g0.remaining
  total_eq : g.total = g0.total
  len_eq : g.field_state.length = g0.field_state.length
  mined_eq : ∀ i : Nat, (g.field_state.get? i).map groundMined
      = (g0.field_state.get? i).map groundMined
  stack_ok : ∀ p ∈ stack, inBounds g0 p ∧ (g.cellAtE p.1 p.2).map groundMined = some false

/-- Invariant of the flood loop for the full flood-reveal correctness
proof, relative to the pre-flood game `g0`, the region list `R`, its
seed, and the border predicate.  `marked` cells are exactly those the
loop has already popped and rewritten. -/
structure FloodInv (g0 : Game) (R : List (Int × Int)) (seed : Int × Int)
    (g : Game) (stack : List (Int × Int)) : Prop where
  width_eq : g.width = g0.width
  height_eq : g.height = g0.height
  state_eq : g.state = g0.state
  remaining_eq : g.remaining = g0.remaining
  total_eq : g.total = g0.total
  len_eq : g.field_state.length = g0.field_state.length
  cm_eq : ∀ i : Nat, (g.field_state.get? i).map countedAsMine
      = (g0.field_state.get? i).map countedAsMine
  out_frame : ∀ q, inBounds g0 q → q ∉ R → ¬ IsBorder g0 R q →
      g.cellAtE q.1 q.2 = g0.cellAtE q.1 q.2
  regC : ∀ p ∈ R, g.cellAtE p.1 p.2 = g0.cellAtE p.1 p.2 ∨
      g.cellAtE p.1 p.2 = some (.Known false)
  borC : ∀ q, IsBorder g0 R q → g.cellAtE q.1 q.2 = g0.cellAtE q.1 q.2 ∨
      ∃ n, g0.neighbor_countE q.1 q.2 = some n ∧ g.cellAtE q.1 q.2 = some (.Counted n)
  stack_closure : ∀ c ∈ stack, c ∈ R ∨ IsBorder g0 R c
  seed_state : g.cellAtE seed.1 seed.2 = some (.Known false) ∨ (g = g0 ∧ stack = [seed])
  complete : ∀ r ∈ R, g.cellAtE r.1 r.2 = some (.Known false) →
      ∀ q ∈ nbrs r, (q ∈ R ∨ IsBorder g0 R q) →
        (g.cellAtE q.1 q.2 ≠ g0.cellAtE q.1 q.2 ∨ q ∈ stack)

-- Concrete boards used to instantiate the verified statements.

/-- A lost 1×1 board. -/
def gLost2 : Game :=
  { width := 1, height := 1, state := .Lost, field_state := [.Unknown false],
    total := 0, remaining := 0 }

/-- A 1×1 board with one covered cell and `remaining = 1`. -/
def gFlag4 : Game :=
  { width := 1, height := 1, state := .Initial, field_state := [.Unknown false],
    total := 1, remaining := 1 }

/-- A 1×1 board with one covered cell and `remaining = 1`. -/
def gRem5 : Game :=
  { width := 1, height := 1, state := .Initial, field_state := [.Unknown false],
    total := 1, remaining := 1 }

/-- A 1×1 board with one covered cell and `remaining = 0` (as produced by
`Game::new(1, 1)`, whose density formula yields zero mines). -/
def gZero5 : Game :=
  { width := 1, height := 1, state := .Initial, field_state := [.Unknown false],
    total := 0, remaining := 0 }

/-- A freshly constructed 2×1 board (phase `Initial`, all cells covered)
with a mine in the second cell. -/
def gInit6 : Game :=
  { width := 2, height := 1, state := .Initial,
    field_state := [.Unknown false, .Unknown true], total := 1, remaining := 1 }

/-- A 2×2 board mid-game with one mine. -/
def gRun7 : Game :=
  { width := 2, height := 2, state := .Initial,
    field_state := [.Unknown true, .Unknown false, .Unknown false, .Unknown false],
    total := 1, remaining := 1 }

/-- A command sequence exercising every mutating operation. -/
def cmds7 : List Cmd :=
  [.flag 0 0, .question 0 0, .set_unknown 0 0, .uncover 1 1, .flag 1 0, .show_mined]

/-- A 2×1 board whose first cell is a revealed mine (`Known(true)`). -/
def gC3cex : Game :=
  { width := 2, height := 1, state := .Lost,
    field_state := [.Known true, .Unknown false], total := 1, remaining := 1 }

/-- A 2×1 board with one hidden mine. -/
def gC3w : Game :=
  { width := 2, height := 1, state := .Initial,
    field_state := [.Unknown true, .Unknown false], total := 1, remaining := 1 }

/-- A 1×1 board in phase `Playing`. -/
def gP10 : Game :=
  { width := 1, height := 1, state := .Playing, field_state := [.Known false],
    total := 3, remaining := 2 }

/-- A 200×200 board: large enough that the 16-bit index arithmetic of the
source overflows for the bottom-right cell. -/
def g200 : Game :=
  { width := 200, height := 200, state := .Initial,
    field_state := List.replicate 40000 (.Unknown false), total := 0, remaining := 0 }

/-- A 2×3 board for the index-safety witness. -/
def gC8w : Game :=
  { width := 2, height := 3, state := .Initial,
    field_state := List.replicate 6 (.Unknown false), total := 0, remaining := 0 }

/-- The 5×5 board of the source's `test_uncover_simple` unit test: mines
at linear indices 0, 4, 5, 18.  The two-cell zero region {(2,0), (2,1)}
is flood-revealed from a click at (2, 0). -/
def gC1 : Game :=
  { width := 5, height := 5, state := .Initial,
    field_state :=
      [.Unknown true, .Unknown false, .Unknown false, .Unknown false, .Unknown true,
       .Unknown true, .Unknown false, .Unknown false, .Unknown false, .Unknown false,
       .Unknown false, .Unknown false, .Unknown false, .Unknown false, .Unknown false,
       .Unknown false, .Unknown false, .Unknown false, .Unknown true, .Unknown false,
       .Unknown false, .Unknown false, .Unknown false, .Unknown false, .Unknown false],
    total := 4, remaining := 4 }

/-- The flood region of `gC1` clicked at (2, 0). -/
def rC1 : List (Int × Int) := [(2, 0), (2, 1)]

/-- A 2×1 all-safe board whose second cell is flagged: a zero region
whose cells are not all `Unknown(false)`. -/
def gC1cex : Game :=
  { width := 2, height := 1, state := .Initial,
    field_state := [.Unknown false, .Flagged false], total := 0, remaining := 0 }

-- ### Basic index and access lemmas

theorem index_nonneg {g : Game} {x y : Int} (h : inBounds g (x, y)) :
    0 ≤ y * g.width + x := by
  obtain ⟨hx0, _, hy0, _⟩ := h
  have : 0 ≤ y * g.width := mul_nonneg hy0 (by omega)
  omega

theorem index_le {g : Game} {x y : Int} (hx : inBounds g (x, y)) :
    y * g.width + x < g.width * g.height := by
  obtain ⟨hx0, hxw, hy0, hyh⟩ := hx
  have h1 : y * g.width ≤ (g.height - 1) * g.width :=
    mul_le_mul_of_nonneg_right (by omega) (by omega)
  have h2 : (g.height - 1) * g.width = g.height * g.width - g.width := by ring
  have h3 : g.height * g.width = g.width * g.height := by ring
  omega

theorem index_toNat_lt {g : Game} {x y : Int} (hwf : g.Wf) (hx : inBounds g (x, y)) :
    (y * g.width + x).toNat < g.field_state.length := by
  obtain ⟨hw, _, hh, _, hlen⟩ := hwf
  have h1 := index_nonneg hx
  have h2 := index_le hx
  omega

theorem index_inj {g : Game} {p q : Int × Int} (hw : 0 < g.width)
    (hp : inBounds g p) (hq : inBounds g q)
    (h : p.2 * g.width + p.1 = q.2 * g.width + q.1) : p = q := by
  obtain ⟨hp0, hpw, hp1, hph⟩ := hp
  obtain ⟨hq0, hqw, hq1, hqh⟩ := hq
  have key : ∀ a b : Int, 0 ≤ a → a < g.width → (a + b * g.width) / g.width = b := by
    intro a b ha hab
    rw [Int.add_mul_ediv_right _ _ (by omega : g.width ≠ 0),
      Int.ediv_eq_zero_of_lt ha hab, zero_add]
  have h2 : p.2 = q.2 := by
    have e1 := key p.1 p.2 hp0 hpw
    have e2 := key q.1 q.2 hq0 hqw
    rw [show p.1 + p.2 * g.width = p.2 * g.width + p.1 by ring] at e1
    rw [show q.1 + q.2 * g.width = q.2 * g.width + q.1 by ring] at e2
    rw [← e1, ← e2, h]
  have h1 : p.1 = q.1 := by
    have := h
    rw [h2] at this
    omega
  exact Prod.ext h1 h2

theorem readIdx_eq_some {g : Game} {i : Int} (h0 : 0 ≤ i)
    (hlt : i.toNat < g.field_state.length) :
    ∃ c, g.readIdxE i = some c ∧ g.field_state.get? i.toNat = some c := by
  unfold Game.readIdxE
  rw [if_neg (by omega)]
  rcases List.get?_eq_get hlt with h
  exact ⟨_, h, h⟩

theorem cellAt_isSome {g : Game} {x y : Int} (hwf : g.Wf) (hx : inBounds g (x, y)) :
    ∃ c, g.cellAtE x y = some c ∧
      g.field_state.get? (y * g.width + x).toNat = some c := by
  exact readIdx_eq_some (index_nonneg hx) (index_toNat_lt hwf hx)

theorem writeIdx_eq_some {g : Game} {i : Int} {c : CellState} (h0 : 0 ≤ i)
    (hlt : i.toNat < g.field_state.length) :
    g.writeIdxE i c = some { g with field_state := g.field_state.set i.toNat c } := by
  unfold Game.writeIdxE
  rw [if_neg (by omega)]

theorem cellAt_set {g : Game} {p : Int × Int} (c : CellState) (hw : 0 < g.width)
    (hp : inBounds g p) (hplt : (p.2 * g.width + p.1).toNat < g.field_state.length)
    (q : Int × Int) (hq : inBounds g q) :
    Game.cellAtE { g with field_state := g.field_state.set (p.2 * g.width + p.1).toNat c }
        q.1 q.2 = if q = p then some c else g.cellAtE q.1 q.2 := by
  have hq0 := index_nonneg hq
  have hp0 := index_nonneg hp
  unfold Game.cellAtE Game.readIdxE
  simp only [List.get?_eq_getElem?]
  by_cases hqp : q = p
  · subst hqp
    rw [if_pos rfl, if_neg (by omega)]
    exact List.getElem?_set_self hplt
  · rw [if_neg hqp, if_neg (by omega), if_neg (by omega)]
    have hne : (p.2 * g.width + p.1).toNat ≠ (q.2 * g.width + q.1).toNat := by
      intro hEq
      exact hqp (index_inj hw hq hp (by omega))
    exact List.getElem?_set_ne hne

-- ### Neighbour-scan lemmas

theorem mem_nbrs {p q : Int × Int} :
    q ∈ nbrs p ↔ p.1 - 1 ≤ q.1 ∧ q.1 ≤ p.1 + 1 ∧ p.2 - 1 ≤ q.2 ∧ q.2 ≤ p.2 + 1 ∧ q ≠ p := by
  obtain ⟨qx, qy⟩ := q
  obtain ⟨px, py⟩ := p
  simp only [nbrs, nbrOffsets, List.mem_map, List.mem_cons, List.not_mem_nil, or_false,
    Prod.mk.injEq, ne_eq, Prod.ext_iff, not_and]
  constructor
  · rintro ⟨d, hd, h1, h2⟩
    rcases hd with h | h | h | h | h | h | h | h <;> (obtain ⟨ha, hb⟩ := h; omega)
  · intro h
    by_cases hx1 : qx = px - 1
    · by_cases hy1 : qy = py - 1
      · exact ⟨(-1, -1), by simp, by omega, by omega⟩
      · by_cases hy2 : qy = py
        · exact ⟨(-1, 0), by simp, by omega, by omega⟩
        · exact ⟨(-1, 1), by simp, by omega, by omega⟩
    · by_cases hx2 : qx = px
      · by_cases hy1 : qy = py - 1
        · exact ⟨(0, -1), by simp, by omega, by omega⟩
        · by_cases hy2 : qy = py
          · exact absurd hy2 (h.2.2.2.2 hx2)
          · exact ⟨(0, 1), by simp, by omega, by omega⟩
      · by_cases hy1 : qy = py - 1
        · exact ⟨(1, -1), by simp, by omega, by omega⟩
        · by_cases hy2 : qy = py
          · exact ⟨(1, 0), by simp, by omega, by omega⟩
          · exact ⟨(1, 1), by simp, by omega, by omega⟩

theorem ne_of_mem_nbrs {p q : Int × Int} (h : q ∈ nbrs p) : q ≠ p :=
  (mem_nbrs.1 h).2.2.2.2

theorem mem_nbrs_symm {p q : Int × Int} (h : q ∈ nbrs p) : p ∈ nbrs q := by
  rw [mem_nbrs] at h ⊢
  obtain ⟨h1, h2, h3, h4, h5⟩ := h
  refine ⟨by omega, by omega, by omega, by omega, ?_⟩
  intro hEq
  exact h5 (by rw [hEq])

theorem nbrs_length (p : Int × Int) : (nbrs p).length = 8 := rfl

theorem mem_scanList_iff {g : Game} {x y : Int} (hw : 0 < g.width)
    (hc : inBounds g (x, y)) {q : Int × Int} :
    q ∈ g.scanListE x y ↔ q ∈ nbrs (x, y) ∧ inBounds g q := by
  obtain ⟨hx0, hxw, hy0, hyh⟩ := hc
  simp only [Game.scanListE, Game.scanRowE, List.mem_flatMap, List.mem_filter,
    List.mem_map, List.mem_cons, List.not_mem_nil, or_false, decide_eq_true_eq]
  constructor
  · rintro ⟨yi, ⟨hyi, hyiB⟩, xi, ⟨hxi, hxiB, hxiInd⟩, hq⟩
    subst hq
    have hqB : inBounds g (xi, yi) := by
      refine ⟨by omega, by omega, by omega, ?_⟩
      simp only
      rcases hyi with h | h | h <;> omega
    have hne : (xi, yi) ≠ (x, y) := by
      intro hEq
      apply hxiInd
      rw [show xi = x from congrArg Prod.fst hEq, show yi = y from congrArg Prod.snd hEq]
    refine ⟨mem_nbrs.2 ⟨?_, ?_, ?_, ?_, hne⟩, hqB⟩ <;> omega
  · rintro ⟨hnb, hqB⟩
    obtain ⟨h1, h2, h3, h4, h5⟩ := mem_nbrs.1 hnb
    obtain ⟨hq1, hq2, hq3, hq4⟩ := hqB
    refine ⟨q.2, ⟨by omega, by omega⟩, q.1, ⟨by omega, by omega, ?_⟩, rfl⟩
    intro hEq
    exact h5 (index_inj hw ⟨hq1, hq2, hq3, hq4⟩ ⟨hx0, hxw, hy0, hyh⟩ hEq)

theorem flatMap_length_le {α β : Type} (l : List α) (f : α → List β) (k : Nat)
    (h : ∀ a ∈ l, (f a).length ≤ k) : (l.flatMap f).length ≤ k * l.length := by
  induction l with
  | nil => simp
  | cons a t ih =>
    simp only [List.flatMap_cons, List.length_append, List.length_cons]
    have h1 := h a (by simp)
    have h2 := ih (fun b hb => h b (by simp [hb]))
    have : k * (t.length + 1) = k * t.length + k := by ring
    omega

theorem scanList_length_le {g : Game} (x y : Int) : (g.scanListE x y).length ≤ 9 := by
  have h : ∀ yi ∈ ([y - 1, y, y + 1].filter
      (fun yi => decide (¬(yi < 0 ∨ yi = g.height)))), (g.scanRowE x y yi).length ≤ 3 := by
    intro yi _
    unfold Game.scanRowE
    calc (([x - 1, x, x + 1].filter _).map _).length
        = ([x - 1, x, x + 1].filter _).length := List.length_map _ _
      _ ≤ [x - 1, x, x + 1].length := List.length_filter_le _ _
      _ = 3 := rfl
  have h3 : ([y - 1, y, y + 1].filter
      (fun yi => decide (¬(yi < 0 ∨ yi = g.height)))).length ≤ 3 :=
    List.length_filter_le _ _
  unfold Game.scanListE
  exact le_trans (flatMap_length_le _ _ 3 h)
    (le_trans (Nat.mul_le_mul_left 3 h3) (by norm_num))

theorem scanList_congr {g1 g2 : Game} (hW : g1.width = g2.width)
    (hH : g1.height = g2.height) (x y : Int) : g1.scanListE x y = g2.scanListE x y := by
  simp only [Game.scanListE, Game.scanRowE, hW, hH]

theorem scanRow_snd {g : Game} {x y yi : Int} {q : Int × Int}
    (h : q ∈ g.scanRowE x y yi) : q.2 = yi := by
  simp only [Game.scanRowE, List.mem_map, List.mem_filter] at h
  obtain ⟨xi, _, hq⟩ := h
  rw [← hq]

theorem scanList_nodup (g : Game) (x y : Int) : (g.scanListE x y).Nodup := by
  unfold Game.scanListE
  rw [List.nodup_flatMap]
  constructor
  · intro yi _
    unfold Game.scanRowE
    refine List.Nodup.map (fun a b hab => congrArg Prod.fst hab) (List.Nodup.filter _ ?_)
    simp only [List.nodup_cons, List.mem_cons, List.not_mem_nil, or_false, List.nodup_nil,
      and_true, not_or]
    exact ⟨⟨by omega, by omega⟩, by omega, by simp⟩
  · have hbase : ([y - 1, y, y + 1].filter
        (fun yi => decide (¬(yi < 0 ∨ yi = g.height)))).Nodup := by
      refine List.Nodup.filter _ ?_
      simp only [List.nodup_cons, List.mem_cons, List.not_mem_nil, or_false, List.nodup_nil,
        and_true, not_or]
      exact ⟨⟨by omega, by omega⟩, by omega, by simp⟩
    refine List.Pairwise.imp ?_ hbase
    intro a b hab
    intro q hqa hqb
    exact hab ((scanRow_snd hqa).symm.trans (scanRow_snd hqb))

theorem cellD_eq {g : Game} {p : Int × Int} {c : CellState}
    (h : g.cellAtE p.1 p.2 = some c) : g.cellD p = c := by
  unfold Game.cellD
  rw [h]
  rfl

theorem countScan_eq (g : Game) :
    ∀ (l : List (Int × Int)) (acc : Nat),
      (∀ p ∈ l, ∃ c, g.cellAtE p.1 p.2 = some c) →
      countScanE g l acc
        = some (acc + l.countP (fun p => countedAsMine (g.cellD p))) := by
  intro l
  induction l with
  | nil => intro acc _; simp [countScanE]
  | cons p ps ih =>
    intro acc hreads
    obtain ⟨c, hc⟩ := hreads p (by simp)
    have hc' : g.readIdxE (p.2 * g.width + p.1) = some c := hc
    rw [countScanE, hc']
    show countScanE g ps (if countedAsMine c = true then acc + 1 else acc)
      = some (acc + List.countP (fun p => countedAsMine (g.cellD p)) (p :: ps))
    rw [ih _ (fun q hq => hreads q (by simp [hq]))]
    rw [List.countP_cons, cellD_eq hc]
    by_cases hcm : countedAsMine c
    · simp [hcm]; omega
    · simp [hcm]

theorem pushScan_eq (g : Game) :
    ∀ (l : List (Int × Int)) (acc : List (Int × Int)),
      (∀ p ∈ l, ∃ c, g.cellAtE p.1 p.2 = some c) →
      pushScanE g l acc
        = some (acc ++ l.filter (fun p => decide (g.cellD p = .Unknown false))) := by
  intro l
  induction l with
  | nil => intro acc _; simp [pushScanE]
  | cons p ps ih =>
    intro acc hreads
    obtain ⟨c, hc⟩ := hreads p (by simp)
    have hc' : g.readIdxE (p.2 * g.width + p.1) = some c := hc
    rw [pushScanE, hc']
    show pushScanE g ps (if c = CellState.Unknown false then acc ++ [p] else acc)
      = some (acc ++ List.filter (fun p => decide (g.cellD p = CellState.Unknown false)) (p :: ps))
    rw [ih _ (fun q hq => hreads q (by simp [hq]))]
    rw [List.filter_cons, cellD_eq hc]
    by_cases hu : c = CellState.Unknown false
    · simp [hu]
    · simp [hu]

theorem scanList_reads {g : Game} {x y : Int} (hwf : g.Wf) (hc : inBounds g (x, y)) :
    ∀ p ∈ g.scanListE x y, ∃ c, g.cellAtE p.1 p.2 = some c := by
  intro p hp
  have hw : 0 < g.width := hwf.1
  obtain ⟨_, hpB⟩ := (mem_scanList_iff hw hc).1 hp
  obtain ⟨c, hcc, _⟩ := cellAt_isSome hwf (show inBounds g (p.1, p.2) from hpB)
  exact ⟨c, hcc⟩

theorem neighbor_count_some {g : Game} {x y : Int} (hwf : g.Wf) (hc : inBounds g (x, y)) :
    g.neighbor_countE x y
      = some ((g.scanListE x y).countP (fun p => countedAsMine (g.cellD p))) := by
  unfold Game.neighbor_countE
  rw [countScan_eq g _ 0 (scanList_reads hwf hc)]
  simp

theorem unknownNeighbors_some {g : Game} {x y : Int} (hwf : g.Wf) (hc : inBounds g (x, y)) :
    g.unknownNeighborsE x y
      = some ((g.scanListE x y).filter (fun p => decide (g.cellD p = .Unknown false))) := by
  unfold Game.unknownNeighborsE
  rw [pushScan_eq g _ [] (scanList_reads hwf hc)]
  simp

theorem countScan_congr {g1 g2 : Game} (hW : g1.width = g2.width)
    (hcm : ∀ i : Nat, (g1.field_state.get? i).map countedAsMine
      = (g2.field_state.get? i).map countedAsMine) :
    ∀ (l : List (Int × Int)) (acc : Nat), countScanE g1 l acc = countScanE g2 l acc := by
  intro l
  induction l with
  | nil => intro acc; rfl
  | cons p ps ih =>
    intro acc
    rw [countScanE, countScanE, ← hW]
    unfold Game.readIdxE
    by_cases hneg : p.2 * g1.width + p.1 < 0
    · rw [if_pos hneg, if_pos hneg]
    · rw [if_neg hneg, if_neg hneg]
      have h := hcm (p.2 * g1.width + p.1).toNat
      cases h1 : g1.field_state.get? (p.2 * g1.width + p.1).toNat with
      | none =>
        rw [h1] at h
        cases h2 : g2.field_state.get? (p.2 * g1.width + p.1).toNat with
        | none => rfl
        | some c2 => rw [h2] at h; simp at h
      | some c1 =>
        rw [h1] at h
        cases h2 : g2.field_state.get? (p.2 * g1.width + p.1).toNat with
        | none => rw [h2] at h; simp at h
        | some c2 =>
          rw [h2] at h
          simp at h
          show countScanE g1 ps (if countedAsMine c1 = true then acc + 1 else acc)
            = countScanE g2 ps (if countedAsMine c2 = true then acc + 1 else acc)
          rw [h]
          exact ih _

theorem neighbor_count_congr {g1 g2 : Game} (hW : g1.width = g2.width)
    (hH : g1.height = g2.height)
    (hcm : ∀ i : Nat, (g1.field_state.get? i).map countedAsMine
      = (g2.field_state.get? i).map countedAsMine) (x y : Int) :
    g1.neighbor_countE x y = g2.neighbor_countE x y := by
  unfold Game.neighbor_countE
  rw [scanList_congr hW hH]
  exact countScan_congr hW hcm _ _

theorem countP_pos_of_get {l : List CellState} {i : Nat} (h : i < l.length)
    {p : CellState → Bool} (hp : p l[i] = true) : 0 < l.countP p :=
  List.countP_pos_iff.2 ⟨l[i], List.getElem_mem h, hp⟩




-- ### Small helper lemmas for single-cell updates

theorem get?_set_self' {α : Type} (l : List α) (i : Nat) (h : i < l.length) (a : α) :
    (l.set i a).get? i = some a := by
  rw [List.get?_eq_getElem?]
  exact List.getElem?_set_self h

-- ### C2

/-- C2: once the phase is `Lost`, `uncover` at any coordinates (even out
of range) returns `Lost` and leaves the whole board — every cell, the
phase, `remaining` and `total` — unchanged. -/
theorem c2_loss_freeze (g : Game) (x y : Int) (h : g.state = .Lost) :
    g.uncover x y = some (g, GameState.Lost) := by
  unfold Game.uncover
  rw [if_pos h, h]

theorem c2_loss_freeze_witness :
    gLost2.state = .Lost ∧ Game.uncover gLost2 5 (-7) = some (gLost2, GameState.Lost) :=
  ⟨rfl, c2_loss_freeze gLost2 5 (-7) rfl⟩

-- ### C4

/-- Case analysis of the exact-index `flagE`: an `Unknown(m)`/`Questioned(m)`
cell becomes `Flagged(m)` and `remaining` is decremented with a floor at 0
(never negative — `remaining` is a `u16`, modelled by the truncated `Nat`
subtraction); any other cell state is a no-op on the cells and the
counter; and the phase is always set to `Playing`. -/
theorem flagE_cases (g : Game) (x y : Int) (hwf : g.Wf) (hb : inBounds g (x, y)) :
    ∃ g', g.flagE x y = some g' ∧ g'.state = .Playing ∧ g'.width = g.width ∧
      g'.height = g.height ∧ g'.total = g.total ∧
      (∀ m, (g.cellAtE x y = some (.Unknown m) ∨ g.cellAtE x y = some (.Questioned m)) →
        g'.field_state = g.field_state.set (y * g.width + x).toNat (.Flagged m) ∧
        g'.remaining = g.remaining - 1) ∧
      ((∀ m, ¬ g.cellAtE x y = some (.Unknown m) ∧ ¬ g.cellAtE x y = some (.Questioned m)) →
        g'.field_state = g.field_state ∧ g'.remaining = g.remaining) := by
  obtain ⟨c, hc, _⟩ := cellAt_isSome hwf hb
  have hc' : g.readIdxE (y * g.width + x) = some c := hc
  have hsub : (if 0 < g.remaining then g.remaining - 1 else g.remaining)
      = g.remaining - 1 := by
    split <;> omega
  cases c with
  | Unknown m =>
    refine ⟨{ g with
        field_state := g.field_state.set (y * g.width + x).toNat (.Flagged m),
        remaining := if 0 < g.remaining then g.remaining - 1 else g.remaining,
        state := .Playing },
      by unfold Game.flagE; rw [hc'], rfl, rfl, rfl, rfl, ?_, ?_⟩
    · intro m' hm'
      rcases hm' with hm' | hm' <;> rw [hc] at hm'
      · obtain rfl : m = m' := by injection hm' with h2; injection h2
        exact ⟨rfl, hsub⟩
      · exact absurd hm' (by simp)
    · intro hno
      exact absurd hc ((hno m).1)
  | Questioned m =>
    refine ⟨{ g with
        field_state := g.field_state.set (y * g.width + x).toNat (.Flagged m),
        remaining := if 0 < g.remaining then g.remaining - 1 else g.remaining,
        state := .Playing },
      by unfold Game.flagE; rw [hc'], rfl, rfl, rfl, rfl, ?_, ?_⟩
    · intro m' hm'
      rcases hm' with hm' | hm' <;> rw [hc] at hm'
      · exact absurd hm' (by simp)
      · obtain rfl : m = m' := by injection hm' with h2; injection h2
        exact ⟨rfl, hsub⟩
    · intro hno
      exact absurd hc ((hno m).2)
  | Known m =>
    refine ⟨{ g with state := .Playing },
      by unfold Game.flagE; rw [hc'], rfl, rfl, rfl, rfl, ?_, fun _ => ⟨rfl, rfl⟩⟩
    intro m' hm'
    rcases hm' with hm' | hm' <;> rw [hc] at hm' <;> exact absurd hm' (by simp)
  | Counted n =>
    refine ⟨{ g with state := .Playing },
      by unfold Game.flagE; rw [hc'], rfl, rfl, rfl, rfl, ?_, fun _ => ⟨rfl, rfl⟩⟩
    intro m' hm'
    rcases hm' with hm' | hm' <;> rw [hc] at hm' <;> exact absurd hm' (by simp)
  | Flagged m =>
    refine ⟨{ g with state := .Playing },
      by unfold Game.flagE; rw [hc'], rfl, rfl, rfl, rfl, ?_, fun _ => ⟨rfl, rfl⟩⟩
    intro m' hm'
    rcases hm' with hm' | hm' <;> rw [hc] at hm' <;> exact absurd hm' (by simp)

-- ### C10

/-- C10 (amended): `clear` wipes every cell back to `Unknown(false)` and
leaves `remaining`, `total`, `width` and `height` unchanged, but — unlike
the claim — it also resets the phase to `Initial` (the source sets
`self.state = GameState::Initial` explicitly). -/
theorem c10_clear (g : Game) :
    (∀ c ∈ (Game.clear g).field_state, c = CellState.Unknown false) ∧
    (Game.clear g).remaining = g.remaining ∧ (Game.clear g).total = g.total ∧
    (Game.clear g).width = g.width ∧ (Game.clear g).height = g.height ∧
    (Game.clear g).state = GameState.Initial := by
  refine ⟨?_, rfl, rfl, rfl, rfl, rfl⟩
  intro c hc
  unfold Game.clear at hc
  simp only [List.mem_replicate] at hc
  exact hc.2

/-- C10 counterexample: on a board in phase `Playing`, `clear` changes
the phase to `Initial`, so the phase is not left unchanged. -/
theorem c10_clear_cex :
    gP10.state = GameState.Playing ∧ (Game.clear gP10).state = GameState.Initial ∧
      (Game.clear gP10).state ≠ gP10.state := by
  refine ⟨rfl, rfl, by decide⟩

theorem c10_clear_witness :
    (Game.clear gP10).field_state = [CellState.Unknown false] ∧
      (Game.clear gP10).remaining = 2 := by
  have h := c10_clear gP10
  refine ⟨by decide, h.2.1⟩

-- ### C5

/-- The flag/question/set_unknown cycle on the exact-index model: for an
in-bounds `Unknown(m)` cell and `remaining ≥ 1` the sequence restores
`remaining` exactly (flag decrements by one, question on the now-flagged
cell increments by one, set_unknown on the now-questioned cell leaves
the counter unchanged). -/
theorem flagE_cycle (g : Game) (x y : Int) (m : Bool) (hwf : g.Wf)
    (hb : inBounds g (x, y)) (hcell : g.cellAtE x y = some (.Unknown m))
    (hrem : 0 < g.remaining) :
    ∃ g1 g2 g3, g.flagE x y = some g1 ∧ g1.questionE x y = some g2 ∧
      g2.set_unknownE x y = some g3 ∧ g1.remaining = g.remaining - 1 ∧
      g2.remaining = g.remaining ∧ g3.remaining = g.remaining := by
  have h0 : 0 ≤ y * g.width + x := index_nonneg hb
  have hlt : (y * g.width + x).toNat < g.field_state.length := index_toNat_lt hwf hb
  have hc1 : g.readIdxE (y * g.width + x) = some (.Unknown m) := hcell
  have e1 : g.flagE x y = some
      { g with
        field_state := g.field_state.set (y * g.width + x).toNat (.Flagged m),
        remaining := if 0 < g.remaining then g.remaining - 1 else g.remaining,
        state := .Playing } := by
    unfold Game.flagE
    rw [hc1]
  have hc2 : Game.readIdxE
      { g with
        field_state := g.field_state.set (y * g.width + x).toNat (.Flagged m),
        remaining := if 0 < g.remaining then g.remaining - 1 else g.remaining,
        state := GameState.Playing } (y * g.width + x) = some (.Flagged m) := by
    unfold Game.readIdxE
    rw [if_neg (by omega)]
    exact get?_set_self' _ _ hlt _
  have e2 : Game.questionE
      { g with
        field_state := g.field_state.set (y * g.width + x).toNat (.Flagged m),
        remaining := if 0 < g.remaining then g.remaining - 1 else g.remaining,
        state := GameState.Playing } x y = some
      { g with
        field_state := (g.field_state.set (y * g.width + x).toNat (.Flagged m)).set
          (y * g.width + x).toNat (.Questioned m),
        remaining := (if 0 < g.remaining then g.remaining - 1 else g.remaining) + 1,
        state := .Playing } := by
    unfold Game.questionE
    rw [hc2]
  have hlt2 : (y * g.width + x).toNat
      < (g.field_state.set (y * g.width + x).toNat (.Flagged m)).length := by
    rw [List.length_set]
    exact hlt
  have hc3 : Game.readIdxE
      { g with
        field_state := (g.field_state.set (y * g.width + x).toNat (.Flagged m)).set
          (y * g.width + x).toNat (.Questioned m),
        remaining := (if 0 < g.remaining then g.remaining - 1 else g.remaining) + 1,
        state := GameState.Playing } (y * g.width + x) = some (.Questioned m) := by
    unfold Game.readIdxE
    rw [if_neg (by omega)]
    exact get?_set_self' _ _ hlt2 _
  have e3 : Game.set_unknownE
      { g with
        field_state := (g.field_state.set (y * g.width + x).toNat (.Flagged m)).set
          (y * g.width + x).toNat (.Questioned m),
        remaining := (if 0 < g.remaining then g.remaining - 1 else g.remaining) + 1,
        state := GameState.Playing } x y = some
      { g with
        field_state := ((g.field_state.set (y * g.width + x).toNat (.Flagged m)).set
          (y * g.width + x).toNat (.Questioned m)).set
          (y * g.width + x).toNat (.Unknown m),
        remaining := (if 0 < g.remaining then g.remaining - 1 else g.remaining) + 1,
        state := GameState.Playing } := by
    unfold Game.set_unknownE
    rw [hc3]
  refine ⟨_, _, _, e1, e2, e3, ?_, ?_, ?_⟩
  · show (if 0 < g.remaining then g.remaining - 1 else g.remaining) = g.remaining - 1
    rw [if_pos hrem]
  · show (if 0 < g.remaining then g.remaining - 1 else g.remaining) + 1 = g.remaining
    rw [if_pos hrem]
    omega
  · show (if 0 < g.remaining then g.remaining - 1 else g.remaining) + 1 = g.remaining
    rw [if_pos hrem]
    omega

-- ### C3

theorem nbrs_nodup (p : Int × Int) : (nbrs p).Nodup := by
  refine List.Nodup.map ?_ (by decide)
  intro a b hab
  have h1 : p.1 + a.1 = p.1 + b.1 := congrArg Prod.fst hab
  have h2 : p.2 + a.2 = p.2 + b.2 := congrArg Prod.snd hab
  have : a.1 = b.1 := by omega
  have : a.2 = b.2 := by omega
  exact Prod.ext (by omega) (by omega)

theorem mem_filter_nbrs {g : Game} {x y : Int} {q : Int × Int} :
    q ∈ (nbrs (x, y)).filter (fun q => decide (inBounds g q)) ↔
      q ∈ nbrs (x, y) ∧ inBounds g q := by
  rw [List.mem_filter, decide_eq_true_eq]

/-- On a board with no revealed mine, `neighbor_count` agrees with the
ground-truth surround count, which is at most 8. -/
theorem neighbor_count_ground (g : Game) (x y : Int) (hwf : g.Wf) (hb : inBounds g (x, y))
    (hnk : ∀ c ∈ g.field_state, c ≠ CellState.Known true) :
    g.neighbor_countE x y = some (g.groundCountE x y) ∧ g.groundCountE x y ≤ 8 := by
  constructor
  · rw [neighbor_count_some hwf hb]
    unfold Game.groundCountE
    have hperm : (g.scanListE x y).Perm ((nbrs (x, y)).filter (fun q => decide (inBounds g q))) := by
      rw [List.perm_ext_iff_of_nodup (scanList_nodup g x y)
        (List.Nodup.filter _ (nbrs_nodup (x, y)))]
      intro q
      rw [mem_scanList_iff hwf.1 hb, mem_filter_nbrs]
    rw [List.Perm.countP_eq (fun p => countedAsMine (g.cellD p)) hperm]
    rw [List.countP_filter]
    rw [List.countP_eq_length_filter]
    have hfe : List.filter (fun a => countedAsMine (g.cellD a) && decide (inBounds g a))
        (nbrs (x, y))
        = List.filter (fun q => decide (inBounds g q) &&
            (Option.map groundMined (g.cellAtE q.1 q.2) == some true)) (nbrs (x, y)) := by
      apply List.filter_congr
      intro q hq
      by_cases hqB : inBounds g q
      · obtain ⟨c, hc, hcg⟩ := cellAt_isSome hwf (show inBounds g (q.1, q.2) from hqB)
        have hcd : g.cellD q = c := cellD_eq hc
        have hcne : c ≠ CellState.Known true := by
          intro hEq
          have hmem : c ∈ g.field_state := by
            have := List.get?_mem hcg
            exact this
          exact hnk c hmem hEq
        rw [hcd, hc]
        cases c with
        | Unknown b => cases b <;> simp [countedAsMine, groundMined, hqB]
        | Known b =>
          cases b
          · simp [countedAsMine, groundMined, hqB]
          · exact absurd rfl hcne
        | Flagged b => cases b <;> simp [countedAsMine, groundMined, hqB]
        | Questioned b => cases b <;> simp [countedAsMine, groundMined, hqB]
        | Counted n => simp [countedAsMine, groundMined, hqB]
      · simp [hqB]
    rw [hfe]
  · unfold Game.groundCountE
    calc ((nbrs (x, y)).filter _).length ≤ (nbrs (x, y)).length :=
          List.length_filter_le _ _
      _ = 8 := rfl

-- ### C8

theorem wrap16_eq_self {v : Int} (h1 : -32768 ≤ v) (h2 : v ≤ 32767) : wrap16 v = v := by
  unfold wrap16
  omega

/-- On a well-formed board with cell count at most 32768, the 16-bit
linear index of an in-bounds coordinate is exact and within the cell
vector. -/
theorem i16Index_spec (g : Game) (x y : Int) (hwf : g.Wf)
    (hsize : g.width * g.height ≤ 32768) (hb : inBounds g (x, y)) :
    i16Index g.width x y = (y * g.width + x).toNat ∧
      i16Index g.width x y < g.field_state.length := by
  obtain ⟨hw, hw2, hh, hh2, hlen⟩ := hwf
  have hnn := index_nonneg hb
  have hle := index_le hb
  obtain ⟨hx0, hxw, hy0, hyh⟩ := hb
  have hyw0 : 0 ≤ y * g.width := mul_nonneg hy0 (by omega)
  have hywle : y * g.width ≤ y * g.width + x := by omega
  have e1 : wrap16 (y * g.width) = y * g.width :=
    wrap16_eq_self (by omega) (by omega)
  have e2 : wrap16 (y * g.width + x) = y * g.width + x :=
    wrap16_eq_self (by omega) (by omega)
  have e3 : i16Index g.width x y = (y * g.width + x).toNat := by
    unfold i16Index
    rw [e1, e2]
    unfold usizeOfInt
    omega
  exact ⟨e3, by omega⟩

/-- C8 (amended): for a well-formed board whose cell count is at most
2^15 = 32768, the linear index computed in the source's 16-bit signed
arithmetic coincides with the exact value `y·width + x` and lies within
the cell vector, so the out-of-bounds panic branch is unreachable for
in-bounds coordinates.  The amendment adds the cell-count bound: the
claim is false for larger (still representable) boards, where the `i16`
product/sum wraps around. -/
theorem c8_index_safe (g : Game) (x y : Int) (hwf : g.Wf)
    (hsize : g.width * g.height ≤ 32768) (hb : inBounds g (x, y)) :
    i16Index g.width x y = (y * g.width + x).toNat ∧
      i16Index g.width x y < g.field_state.length :=
  i16Index_spec g x y hwf hsize hb

/-- C8 counterexample: on a well-formed 200×200 board the bottom-right
cell (199, 199) has exact index 39999, but the 16-bit computation wraps
to a negative value whose `usize` cast is astronomically out of range:
the claim fails without a bound on the cell count. -/
theorem c8_index_safe_cex :
    g200.Wf ∧ inBounds g200 (199, 199) ∧
      ¬ i16Index g200.width 199 199 < g200.field_state.length := by
  have hl : g200.field_state.length = 40000 := by
    show (List.replicate 40000 (CellState.Unknown false)).length = 40000
    rw [List.length_replicate]
  refine ⟨⟨by decide, by decide, by decide, by decide, ?_⟩, by decide, ?_⟩
  · rw [hl]; decide
  · rw [hl]; decide

theorem c8_index_safe_witness :
    i16Index gC8w.width 1 2 = 5 ∧ i16Index gC8w.width 1 2 < gC8w.field_state.length := by
  have h := c8_index_safe gC8w 1 2 (by decide) (by decide) (by decide)
  exact ⟨by rw [h.1]; decide, h.2⟩

-- ### C9

theorem countP_replicate_unknown (n : Nat) :
    (List.replicate n (CellState.Unknown false)).countP
      (fun c => decide (¬ c = CellState.Unknown true)) = n := by
  induction n with
  | zero => rfl
  | succ k ihk =>
    rw [List.replicate_succ, List.countP_cons, ihk]
    simp

theorem resample_none (picks : Nat → Nat) (cells : List CellState)
    (hall : ∀ i, i < cells.length → cells.get? i = some (.Unknown true))
    (hlen : 0 < cells.length) :
    ∀ (pos fuel : Nat), resample picks cells pos fuel = none := by
  intro pos fuel
  induction fuel generalizing pos with
  | zero => rfl
  | succ f ih =>
    unfold resample
    rw [if_pos (hall _ (Nat.mod_lt _ hlen))]
    exact ih _

theorem resample_some {picks : Nat → Nat} {cells : List CellState}
    {pos fuel c pos1 : Nat}
    (h : resample picks cells pos fuel = some (c, pos1)) (hlen : 0 < cells.length) :
    c < cells.length ∧ ¬ cells.get? c = some (.Unknown true) := by
  induction fuel generalizing pos with
  | zero => exact absurd h (by simp [resample])
  | succ f ih =>
    unfold resample at h
    by_cases hc : cells.get? (picks pos % cells.length) = some (.Unknown true)
    · rw [if_pos hc] at h
      exact ih h
    · rw [if_neg hc] at h
      obtain ⟨h1, _⟩ := Prod.mk.injEq .. ▸ Option.some.inj h
      exact h1 ▸ ⟨Nat.mod_lt _ hlen, hc⟩

theorem placeMines_none (picks : Nat → Nat) :
    ∀ (mines fuel pos : Nat) (cells : List CellState),
      0 < cells.length →
      cells.countP (fun c => decide (¬ c = CellState.Unknown true)) < mines →
      placeMines picks pos mines fuel cells = none := by
  intro mines
  induction mines with
  | zero => intro fuel pos cells _ hcount; omega
  | succ m ih =>
    intro fuel pos cells hlen hcount
    unfold placeMines
    by_cases hfree : cells.countP (fun c => decide (¬ c = CellState.Unknown true)) = 0
    · have hall : ∀ i, i < cells.length → cells.get? i = some (.Unknown true) := by
        intro i hi
        have hmem := List.countP_eq_zero.1 hfree
        have hget := List.get?_eq_get hi
        have := hmem _ (List.get_mem cells i hi)
        simp only [decide_eq_true_eq, not_not] at this
        rw [hget, this]
      rw [resample_none picks cells hall hlen pos fuel]
    · cases hres : resample picks cells pos fuel with
      | none => rfl
      | some cp =>
        obtain ⟨c, pos1⟩ := cp
        obtain ⟨hclt, hcne⟩ := resample_some hres hlen
        have hgot : cells.get? c = some cells[c] := List.get?_eq_get hclt
        have hne : ¬ cells[c] = CellState.Unknown true := by
          intro hEq
          exact hcne (by rw [hgot, hEq])
        have hstep : (cells.set c (.Unknown true)).countP
            (fun c => decide (¬ c = CellState.Unknown true))
            = cells.countP (fun c => decide (¬ c = CellState.Unknown true)) - 1 := by
          rw [List.countP_set _ _ _ _ hclt]
          simp [hne]
        apply ih fuel pos1
        · rw [List.length_set]; exact hlen
        · rw [hstep]; omega

/-- C9: the claimed `InvalidDimensions` guard does not exist in the code.
Supporting theorem for the divergence: whenever the requested mine count
exceeds the (positive) cell count, the resample-on-collision placement
loop of `Game::reset` fails to terminate — for every random stream and
every fuel bound the model returns `none` (the loop never finishes). -/
theorem c9_placement_diverges (n mines : Nat) (h0 : 0 < n) (hm : n < mines) :
    ∀ (picks : Nat → Nat) (pos fuel : Nat),
      placeMines picks pos mines fuel (List.replicate n (CellState.Unknown false)) = none := by
  intro picks pos fuel
  apply placeMines_none
  · rw [List.length_replicate]; exact h0
  · rw [countP_replicate_unknown]
    omega

theorem c9_placement_diverges_witness :
    0 < 1 ∧ 1 < 2 ∧
      placeMines (fun _ => 0) 0 2 5 (List.replicate 1 (CellState.Unknown false)) = none :=
  ⟨by decide, by decide, c9_placement_diverges 1 2 (by decide) (by decide) (fun _ => 0) 0 5⟩

-- ### Flood-loop unfolding lemmas

theorem mark_width (g : Game) (p : Int × Int) (c : CellState) :
    (g.mark p c).width = g.width := rfl

theorem mark_length {g : Game} (p : Int × Int) (c : CellState) :
    (g.mark p c).field_state.length = g.field_state.length := by
  unfold Game.mark
  exact List.length_set _ _ _

theorem mark_wf {g : Game} (hwf : g.Wf) (p : Int × Int) (c : CellState) :
    (g.mark p c).Wf := by
  obtain ⟨h1, h2, h3, h4, h5⟩ := hwf
  exact ⟨h1, h2, h3, h4, by rw [mark_length]; exact h5⟩

theorem writeIdx_eq_mark {g : Game} {p : Int × Int} (c : CellState)
    (hwf : g.Wf) (hp : inBounds g p) :
    g.writeIdxE (p.2 * g.width + p.1) c = some (g.mark p c) :=
  writeIdx_eq_some (index_nonneg hp) (index_toNat_lt hwf hp)

theorem unknownNeighbors_eq {g : Game} {p : Int × Int} (hwf : g.Wf) (hp : inBounds g p) :
    g.unknownNeighborsE p.1 p.2 = some (g.pushesAt p) :=
  unknownNeighbors_some hwf hp

theorem cellAt_mark {g : Game} {p : Int × Int} (c : CellState) (hwf : g.Wf)
    (hp : inBounds g p) (q : Int × Int) (hq : inBounds g q) :
    (g.mark p c).cellAtE q.1 q.2 = if q = p then some c else g.cellAtE q.1 q.2 :=
  cellAt_set c hwf.1 hp (index_toNat_lt hwf hp) q hq

theorem floodLoop_nil (g : Game) (fuel : Nat) : floodLoopE g [] fuel = some g := by
  cases fuel <;> rfl
set_option maxHeartbeats 1000000 in
theorem floodLoop_cons_zero {g : Game} {p : Int × Int} (rest : List (Int × Int))
    (hwf : g.Wf) (hp : inBounds g p)
    (hn : g.neighbor_countE p.1 p.2 = some 0) (fuel : Nat) :
    floodLoopE g (p :: rest) (fuel + 1)
      = floodLoopE (g.mark p (.Known false))
          (((g.mark p (.Known false)).pushesAt p).reverse ++ rest) fuel := by
  obtain ⟨px, py⟩ := p
  have h1 : g.neighbor_countE px py = some 0 := hn
  have h2 : g.writeIdxE (py * g.width + px) (.Known false)
      = some (g.mark (px, py) (.Known false)) := writeIdx_eq_mark _ hwf hp
  have h3 : (g.mark (px, py) (.Known false)).unknownNeighborsE px py
      = some ((g.mark (px, py) (.Known false)).pushesAt (px, py)) :=
    unknownNeighbors_eq (mark_wf hwf _ _) hp
  simp only [floodLoopE, h1, h2, h3, if_true]

set_option maxHeartbeats 1000000 in
theorem floodLoop_cons_pos {g : Game} {p : Int × Int} (rest : List (Int × Int)) {n : Nat}
    (hwf : g.Wf) (hp : inBounds g p)
    (hn : g.neighbor_countE p.1 p.2 = some n) (hn0 : n ≠ 0) (fuel : Nat) :
    floodLoopE g (p :: rest) (fuel + 1)
      = floodLoopE (g.mark p (.Counted n)) rest fuel := by
  obtain ⟨px, py⟩ := p
  have h1 : g.neighbor_countE px py = some n := hn
  have h2 : g.writeIdxE (py * g.width + px) (.Counted n)
      = some (g.mark (px, py) (.Counted n)) := writeIdx_eq_mark _ hwf hp
  simp only [floodLoopE, h1, h2, if_neg hn0]

-- ### Measure accounting lemmas

theorem getElem_of_cellAt {g : Game} {p : Int × Int} {c0 : CellState} (hwf : g.Wf)
    (hp : inBounds g p) (hc0 : g.cellAtE p.1 p.2 = some c0) :
    ∃ hlt : (p.2 * g.width + p.1).toNat < g.field_state.length,
      g.field_state[(p.2 * g.width + p.1).toNat] = c0 := by
  have hlt := index_toNat_lt hwf hp
  refine ⟨hlt, ?_⟩
  unfold Game.cellAtE Game.readIdxE at hc0
  rw [if_neg (by have := index_nonneg hp; omega)] at hc0
  rw [List.get?_eq_getElem?, List.getElem?_eq_getElem hlt] at hc0
  exact Option.some.inj hc0

theorem map_get?_set {l : List CellState} {i : Nat} (hi : i < l.length) (a : CellState)
    (f : CellState → Bool) (hf : f a = f l[i]) (j : Nat) :
    ((l.set i a).get? j).map f = (l.get? j).map f := by
  rw [List.get?_eq_getElem?, List.get?_eq_getElem?]
  by_cases hji : i = j
  · subst hji
    rw [List.getElem?_set_self hi, List.getElem?_eq_getElem hi]
    simp [hf]
  · rw [List.getElem?_set_ne hji]

theorem map_get?_mark {g : Game} {p : Int × Int} {c0 : CellState} (hwf : g.Wf)
    (hp : inBounds g p) (hc0 : g.cellAtE p.1 p.2 = some c0) {c : CellState}
    (f : CellState → Bool) (hf : f c = f c0) (j : Nat) :
    ((g.mark p c).field_state.get? j).map f = (g.field_state.get? j).map f := by
  obtain ⟨hlt, hgl⟩ := getElem_of_cellAt hwf hp hc0
  show ((g.field_state.set _ c).get? j).map f = _
  exact map_get?_set hlt c f (by rw [hgl, hf]) j

theorem uCount_mark {g : Game} {p : Int × Int} {c0 : CellState} (hwf : g.Wf)
    (hp : inBounds g p) (hc0 : g.cellAtE p.1 p.2 = some c0) {c : CellState}
    (hc : ¬ c = CellState.Unknown false) :
    uCount (g.mark p c) + (if c0 = CellState.Unknown false then 1 else 0) = uCount g := by
  obtain ⟨hlt, hgl⟩ := getElem_of_cellAt hwf hp hc0
  unfold uCount
  show ((g.field_state.set _ c).countP _) + _ = _
  rw [List.countP_set _ _ _ _ hlt, hgl]
  by_cases h0 : c0 = CellState.Unknown false
  · have hpos : 0 < g.field_state.countP (fun x => decide (x = CellState.Unknown false)) :=
      countP_pos_of_get hlt (by rw [hgl, h0]; simp)
    simp [h0, hc]
    omega
  · simp [h0, hc]

theorem pushesAt_length_le (g : Game) (p : Int × Int) : (g.pushesAt p).length ≤ 9 :=
  le_trans (List.length_filter_le _ _) (scanList_length_le p.1 p.2)

theorem mem_pushesAt {g : Game} {p q : Int × Int} (hwf : g.Wf) (hp : inBounds g p) :
    q ∈ g.pushesAt p ↔
      q ∈ nbrs p ∧ inBounds g q ∧ g.cellAtE q.1 q.2 = some (.Unknown false) := by
  unfold Game.pushesAt
  rw [List.mem_filter, decide_eq_true_eq]
  obtain ⟨px, py⟩ := p
  rw [mem_scanList_iff hwf.1 hp]
  constructor
  · rintro ⟨⟨hn, hb⟩, hcd⟩
    obtain ⟨c, hc, _⟩ := cellAt_isSome hwf (show inBounds g (q.1, q.2) from hb)
    have := cellD_eq hc
    refine ⟨hn, hb, ?_⟩
    rw [hc, ← this, hcd]
  · rintro ⟨hn, hb, hcell⟩
    exact ⟨⟨hn, hb⟩, cellD_eq hcell⟩

theorem floodMeasure_cons_pos (g : Game) (p : Int × Int) (rest : List (Int × Int)) :
    1 ≤ floodMeasure g (p :: rest) := by
  unfold floodMeasure
  rw [List.length_cons]
  omega

-- ### The flood-loop step: one loop iteration, with measure bookkeeping

theorem flood_step_core {g : Game} {p : Int × Int} (rest : List (Int × Int))
    (hwf : g.Wf) (hp : inBounds g p) :
    ∃ n g' st',
      g.neighbor_countE p.1 p.2 = some n ∧
      (∀ f, floodLoopE g (p :: rest) (f + 1) = floodLoopE g' st' f) ∧
      ((n = 0 ∧ g' = g.mark p (.Known false) ∧ st' = (g'.pushesAt p).reverse ++ rest) ∨
        (n ≠ 0 ∧ g' = g.mark p (.Counted n) ∧ st' = rest)) ∧
      floodMeasure g' st' ≤ floodMeasure g (p :: rest) + 8 ∧
      (g.cellAtE p.1 p.2 = some (.Unknown false) →
        floodMeasure g' st' + 9 ≤ floodMeasure g (p :: rest)) ∧
      (floodMeasure g' st' + 1 ≤ floodMeasure g (p :: rest) ∨
        ∃ c rest2, st' = c :: rest2 ∧ g'.cellAtE c.1 c.2 = some (.Unknown false)) := by
  obtain ⟨c0, hc0, _⟩ := cellAt_isSome hwf hp
  have hcount := neighbor_count_some hwf hp
  by_cases hz : (g.scanListE p.1 p.2).countP (fun q => countedAsMine (g.cellD q)) = 0
  · -- zero branch: mark Known(false) and push
    rw [hz] at hcount
    have hunf := fun f => floodLoop_cons_zero rest hwf hp hcount f
    have hmark := uCount_mark hwf hp hc0
      (show ¬ CellState.Known false = CellState.Unknown false by simp)
    have hplen : ((g.mark p (.Known false)).pushesAt p).length ≤ 9 :=
      pushesAt_length_le _ p
    have hstlen : (((g.mark p (.Known false)).pushesAt p).reverse ++ rest).length
        = ((g.mark p (.Known false)).pushesAt p).length + rest.length := by
      rw [List.length_append, List.length_reverse]
    refine ⟨0, g.mark p (.Known false),
      ((g.mark p (.Known false)).pushesAt p).reverse ++ rest, hcount, hunf,
      Or.inl ⟨rfl, rfl, rfl⟩, ?_, ?_, ?_⟩
    · unfold floodMeasure
      rw [hstlen, List.length_cons]
      by_cases h0 : c0 = CellState.Unknown false <;> simp [h0] at hmark <;> omega
    · intro hU
      have h0 : c0 = CellState.Unknown false := by
        rw [hc0] at hU
        exact Option.some.inj hU
      unfold floodMeasure
      rw [hstlen, List.length_cons]
      simp [h0] at hmark
      omega
    · by_cases h0 : c0 = CellState.Unknown false
      · left
        have hU : g.cellAtE p.1 p.2 = some (.Unknown false) := by rw [hc0, h0]
        have := hc0
        unfold floodMeasure
        rw [hstlen, List.length_cons]
        simp [h0] at hmark
        omega
      · cases hrev : ((g.mark p (.Known false)).pushesAt p).reverse with
        | nil =>
          left
          unfold floodMeasure
          rw [List.nil_append, List.length_cons]
          simp [h0] at hmark
          omega
        | cons c cs =>
          right
          refine ⟨c, cs ++ rest, rfl, ?_⟩
          have hcmem : c ∈ (g.mark p (.Known false)).pushesAt p := by
            rw [← List.mem_reverse, hrev]
            simp
          have hpmem := (mem_pushesAt (mark_wf hwf p _) hp).1 hcmem
          exact hpmem.2.2
  · -- nonzero branch: mark Counted(n)
    have hunf := fun f => floodLoop_cons_pos rest hwf hp hcount hz f
    have hmark := uCount_mark hwf hp hc0
      (show ¬ CellState.Counted ((g.scanListE p.1 p.2).countP
        (fun q => countedAsMine (g.cellD q))) = CellState.Unknown false by simp)
    refine ⟨_, g.mark p (.Counted _), rest, hcount, hunf, Or.inr ⟨hz, rfl, rfl⟩, ?_, ?_, ?_⟩
    · unfold floodMeasure
      rw [List.length_cons]
      by_cases h0 : c0 = CellState.Unknown false <;> simp [h0] at hmark <;> omega
    · intro hU
      have h0 : c0 = CellState.Unknown false := by
        rw [hc0] at hU
        exact Option.some.inj hU
      unfold floodMeasure
      rw [List.length_cons]
      simp [h0] at hmark
      omega
    · left
      unfold floodMeasure
      rw [List.length_cons]
      by_cases h0 : c0 = CellState.Unknown false <;> simp [h0] at hmark <;> omega

-- ### Generic flood-loop induction: any invariant preserved by one step
-- holds at the drained stack, and the loop terminates within the fuel.

theorem flood_master (J : Game → List (Int × Int) → Prop)
    (hstep : ∀ g p rest, J g (p :: rest) →
      ∃ g' st', (∀ f, floodLoopE g (p :: rest) (f + 1) = floodLoopE g' st' f) ∧ J g' st' ∧
        floodMeasure g' st' ≤ floodMeasure g (p :: rest) + 8 ∧
        (g.cellAtE p.1 p.2 = some (.Unknown false) →
          floodMeasure g' st' + 9 ≤ floodMeasure g (p :: rest)) ∧
        (floodMeasure g' st' + 1 ≤ floodMeasure g (p :: rest) ∨
          ∃ c rest2, st' = c :: rest2 ∧ g'.cellAtE c.1 c.2 = some (.Unknown false))) :
    ∀ n : Nat, ∀ g stack, J g stack → floodMeasure g stack ≤ n →
      ∀ fuel, 2 * n + 1 ≤ fuel →
        ∃ g2, floodLoopE g stack fuel = some g2 ∧ J g2 [] := by
  intro n
  induction n using Nat.strong_induction_on with
  | _ n ih =>
    intro g stack hJ hm fuel hfuel
    cases stack with
    | nil => exact ⟨g, floodLoop_nil g fuel, hJ⟩
    | cons p rest =>
      have hm1 : 1 ≤ floodMeasure g (p :: rest) := floodMeasure_cons_pos g p rest
      have hn1 : 1 ≤ n := le_trans hm1 hm
      obtain ⟨g', st', hunf, hJ', hle8, hUnk, hdec⟩ := hstep g p rest hJ
      obtain ⟨f, rfl⟩ : ∃ f, fuel = f + 1 := ⟨fuel - 1, by omega⟩
      rw [hunf f]
      rcases hdec with hdec | ⟨c, rest2, rfl, hcU⟩
      · exact ih (n - 1) (by omega) g' st' hJ' (by omega) f (by omega)
      · obtain ⟨g2, st2, hunf2, hJ2, _, hUnk2, _⟩ := hstep g' c rest2 hJ'
        have hdrop := hUnk2 hcU
        obtain ⟨f2, rfl⟩ : ∃ f2, f = f2 + 1 := ⟨f - 1, by omega⟩
        rw [hunf2 f2]
        exact ih (n - 1) (by omega) g2 st2 hJ2 (by omega) f2 (by omega)

-- ### The frame invariant is preserved by flood steps

theorem inBounds_eq_of {g g0 : Game} (hW : g.width = g0.width)
    (hH : g.height = g0.height) (p : Int × Int) : inBounds g p ↔ inBounds g0 p := by
  unfold inBounds
  rw [hW, hH]

theorem cellAt_map_mark {g : Game} {p : Int × Int} {c0 : CellState} (hwf : g.Wf)
    (hp : inBounds g p) (hc0 : g.cellAtE p.1 p.2 = some c0) {c : CellState}
    (f : CellState → Bool) (hf : f c = f c0) (x y : Int) :
    ((g.mark p c).cellAtE x y).map f = (g.cellAtE x y).map f := by
  obtain ⟨hlt, hgl⟩ := getElem_of_cellAt hwf hp hc0
  unfold Game.cellAtE Game.readIdxE
  show (if y * g.width + x < 0 then none
    else (g.field_state.set (p.2 * g.width + p.1).toNat c).get? (y * g.width + x).toNat).map f
    = _
  by_cases hneg : y * g.width + x < 0
  · rw [if_pos hneg, if_pos hneg]
  · rw [if_neg hneg, if_neg hneg]
    exact map_get?_set hlt c f (by rw [hgl, hf]) _

theorem wf_of_frame {g0 g : Game} (hwf0 : g0.Wf) (hW : g.width = g0.width)
    (hH : g.height = g0.height) (hL : g.field_state.length = g0.field_state.length) :
    g.Wf := by
  obtain ⟨h1, h2, h3, h4, h5⟩ := hwf0
  exact ⟨by rw [hW]; exact h1, by rw [hW]; exact h2, by rw [hH]; exact h3,
    by rw [hH]; exact h4, by rw [hL, hW, hH]; exact h5⟩

theorem floodFrame_step (g0 : Game) (hwf0 : g0.Wf) :
    ∀ g p rest, FloodFrame g0 g (p :: rest) →
      ∃ g' st', (∀ f, floodLoopE g (p :: rest) (f + 1) = floodLoopE g' st' f) ∧
        FloodFrame g0 g' st' ∧
        floodMeasure g' st' ≤ floodMeasure g (p :: rest) + 8 ∧
        (g.cellAtE p.1 p.2 = some (.Unknown false) →
          floodMeasure g' st' + 9 ≤ floodMeasure g (p :: rest)) ∧
        (floodMeasure g' st' + 1 ≤ floodMeasure g (p :: rest) ∨
          ∃ c rest2, st' = c :: rest2 ∧ g'.cellAtE c.1 c.2 = some (.Unknown false)) := by
  intro g p rest hF
  have hwf : g.Wf := wf_of_frame hwf0 hF.width_eq hF.height_eq hF.len_eq
  obtain ⟨hp0, hpg⟩ := hF.stack_ok p (by simp)
  have hp : inBounds g p := (inBounds_eq_of hF.width_eq hF.height_eq p).2 hp0
  obtain ⟨n, g', st', hcount, hunf, hbranch, hm8, hmU, hmd⟩ := flood_step_core rest hwf hp
  obtain ⟨c0, hc0, _⟩ := cellAt_isSome hwf hp
  have hgc0 : groundMined c0 = false := by
    rw [hc0] at hpg
    simpa using hpg
  refine ⟨g', st', hunf, ?_, hm8, hmU, hmd⟩
  rcases hbranch with ⟨hz, rfl, rfl⟩ | ⟨hnz, rfl, rfl⟩
  · -- zero branch: marked Known(false), pushes are Unknown(false) cells
    have hfK : groundMined (CellState.Known false) = groundMined c0 := by
      rw [hgc0]
      rfl
    refine ⟨hF.width_eq, hF.height_eq, hF.state_eq, hF.remaining_eq, hF.total_eq,
      by rw [mark_length]; exact hF.len_eq, ?_, ?_⟩
    · intro i
      exact (map_get?_mark hwf hp hc0 groundMined hfK i).trans (hF.mined_eq i)
    · intro q hq
      rcases List.mem_append.1 hq with hq | hq
      · have hqp := (mem_pushesAt (mark_wf hwf p _) hp).1 (List.mem_reverse.1 hq)
        have hqB : inBounds g0 q :=
          (inBounds_eq_of (show (g.mark p (.Known false)).width = g0.width from hF.width_eq)
            (show (g.mark p (.Known false)).height = g0.height from hF.height_eq) q).1 hqp.2.1
        refine ⟨hqB, ?_⟩
        rw [hqp.2.2]
        rfl
      · obtain ⟨hqB, hqg⟩ := hF.stack_ok q (by simp [hq])
        refine ⟨hqB, ?_⟩
        rw [cellAt_map_mark hwf hp hc0 groundMined hfK q.1 q.2]
        exact hqg
  · -- nonzero branch: marked Counted(n)
    have hfC : groundMined (CellState.Counted n) = groundMined c0 := by
      rw [hgc0]
      rfl
    refine ⟨hF.width_eq, hF.height_eq, hF.state_eq, hF.remaining_eq, hF.total_eq,
      by rw [mark_length]; exact hF.len_eq, ?_, ?_⟩
    · intro i
      exact (map_get?_mark hwf hp hc0 groundMined hfC i).trans (hF.mined_eq i)
    · intro q hq
      obtain ⟨hqB, hqg⟩ := hF.stack_ok q (by simp [hq])
      refine ⟨hqB, ?_⟩
      rw [cellAt_map_mark hwf hp hc0 groundMined hfC q.1 q.2]
      exact hqg

/-- The flood loop terminates within `floodFuel` and preserves the frame
invariant (dimensions, counters, phase, ground-truth mine map). -/
theorem floodLoop_total (g0 : Game) (hwf0 : g0.Wf) (g : Game) (stack : List (Int × Int))
    (hF : FloodFrame g0 g stack) (fuel : Nat)
    (hfuel : 2 * (17 * uCount g + stack.length) + 1 ≤ fuel) :
    ∃ g2, floodLoopE g stack fuel = some g2 ∧ FloodFrame g0 g2 [] :=
  flood_master (FloodFrame g0) (floodFrame_step g0 hwf0)
    (17 * uCount g + stack.length) g stack hF (Nat.le_refl _) fuel hfuel

-- ### Full characterisation of `uncover`'s success and frame effects

set_option maxHeartbeats 1000000 in
theorem uncover_props (g : Game) (x y : Int) (hwf : g.Wf) (hb : inBounds g (x, y)) :
    ∃ g' s, g.uncoverE x y = some (g', s) ∧ g'.width = g.width ∧ g'.height = g.height ∧
      g'.total = g.total ∧ g'.remaining = g.remaining ∧
      g'.field_state.length = g.field_state.length ∧
      (∀ i : Nat, (g'.field_state.get? i).map groundMined
        = (g.field_state.get? i).map groundMined) ∧
      (g.state = .Lost → g' = g ∧ s = .Lost) ∧
      (g.state ≠ .Lost → g'.state = s ∧
        ∀ b, g.cellAtE x y = some (.Unknown b) → s = if b then .Lost else .Playing) := by
  by_cases hL : g.state = .Lost
  · refine ⟨g, .Lost, ?_, rfl, rfl, rfl, rfl, rfl, fun i => rfl, fun _ => ⟨rfl, rfl⟩,
      fun h => absurd hL h⟩
    unfold Game.uncoverE
    rw [if_pos hL, hL]
  · obtain ⟨c, hc, _⟩ := cellAt_isSome hwf hb
    have hwf1 : Game.Wf { g with state := GameState.Playing } := hwf
    have hb1 : inBounds { g with state := GameState.Playing } (x, y) := hb
    have hcR : Game.readIdxE { g with state := GameState.Playing } (y * g.width + x)
        = some c := hc
    have hc1 : Game.cellAtE { g with state := GameState.Playing } x y = some c := hc
    cases c with
    | Known b =>
      refine ⟨{ g with state := GameState.Playing }, GameState.Playing, ?_, rfl, rfl, rfl,
        rfl, rfl, fun i => rfl, fun h => absurd h hL, fun _ => ⟨rfl, ?_⟩⟩
      · simp only [Game.uncoverE, if_neg hL, hcR]
      · intro b2 hb2
        rw [hc] at hb2
        exact absurd hb2 (by simp)
    | Counted k =>
      refine ⟨{ g with state := GameState.Playing }, GameState.Playing, ?_, rfl, rfl, rfl,
        rfl, rfl, fun i => rfl, fun h => absurd h hL, fun _ => ⟨rfl, ?_⟩⟩
      · simp only [Game.uncoverE, if_neg hL, hcR]
      · intro b2 hb2
        rw [hc] at hb2
        exact absurd hb2 (by simp)
    | Unknown b =>
      cases b with
      | true =>
        have hwrt : Game.writeIdxE { g with state := GameState.Playing } (y * g.width + x)
            (.Known true)
            = some (Game.mark { g with state := GameState.Playing } (x, y) (.Known true)) :=
          writeIdx_eq_mark _ hwf1 hb1
        refine ⟨{ Game.mark { g with state := GameState.Playing } (x, y) (.Known true) with
          state := GameState.Lost }, GameState.Lost, ?_, rfl, rfl, rfl, rfl,
          mark_length _ _, ?_, fun h => absurd h hL, fun _ => ⟨rfl, ?_⟩⟩
        · simp only [Game.uncoverE, if_neg hL, hcR, hwrt]
        · intro i
          show ((Game.mark { g with state := GameState.Playing } (x, y)
            (.Known true)).field_state.get? i).map groundMined
            = (g.field_state.get? i).map groundMined
          exact map_get?_mark hwf1 hb1 hc1 groundMined
            (show groundMined (CellState.Known true)
              = groundMined (CellState.Unknown true) from rfl) i
        · intro b2 hb2
          rw [hc] at hb2
          have hbt : b2 = true := by
            have h2 := Option.some.inj hb2
            injection h2 with h3
            exact h3.symm
          rw [hbt]
          simp
      | false =>
        have hcount1 : Game.neighbor_countE { g with state := GameState.Playing } x y
            = some ((g.scanListE x y).countP (fun q => countedAsMine (g.cellD q))) := by
          have h1 : Game.neighbor_countE { g with state := GameState.Playing } x y
              = g.neighbor_countE x y :=
            neighbor_count_congr
              (show ({ g with state := GameState.Playing } : Game).width = g.width from rfl)
              (show ({ g with state := GameState.Playing } : Game).height = g.height from rfl)
              (fun i => rfl) x y
          rw [h1]
          exact neighbor_count_some hwf hb
        by_cases hnz : (g.scanListE x y).countP (fun q => countedAsMine (g.cellD q)) = 0
        · -- flood branch
          rw [hnz] at hcount1
          have hInit : FloodFrame { g with state := GameState.Playing }
              { g with state := GameState.Playing } [(x, y)] := by
            refine ⟨rfl, rfl, rfl, rfl, rfl, rfl, fun i => rfl, ?_⟩
            intro q hq
            simp only [List.mem_singleton] at hq
            subst hq
            refine ⟨hb1, ?_⟩
            rw [hc1]
            rfl
          have hfuelB : 2 * (17 * uCount { g with state := GameState.Playing }
              + ([(x, y)] : List (Int × Int)).length) + 1
              ≤ floodFuel { g with state := GameState.Playing } := by
            show 2 * (17 * uCount g + 1) + 1 ≤ 34 * g.field_state.length + 3
            have hcl : uCount g ≤ g.field_state.length := by
              unfold uCount
              apply List.countP_le_length
            omega
          obtain ⟨g2, hloop, hFr⟩ := floodLoop_total { g with state := GameState.Playing }
            hwf1 { g with state := GameState.Playing } [(x, y)] hInit
            (floodFuel { g with state := GameState.Playing }) hfuelB
          refine ⟨g2, g2.state, ?_, hFr.width_eq, hFr.height_eq, hFr.total_eq,
            hFr.remaining_eq, hFr.len_eq, hFr.mined_eq, fun h => absurd h hL,
            fun _ => ⟨rfl, ?_⟩⟩
          · simp only [Game.uncoverE, if_neg hL, hcR, hcount1]
            simp [hloop]
          · intro b2 hb2
            rw [hc] at hb2
            have hb2' : b2 = false := by
              have h2 := Option.some.inj hb2
              injection h2 with h3
              exact h3.symm
            rw [hb2', hFr.state_eq]
            simp
        · -- counted branch
          have hwrt : Game.writeIdxE { g with state := GameState.Playing } (y * g.width + x)
              (.Counted ((g.scanListE x y).countP (fun q => countedAsMine (g.cellD q))))
              = some (Game.mark { g with state := GameState.Playing } (x, y)
                (.Counted ((g.scanListE x y).countP (fun q => countedAsMine (g.cellD q))))) :=
            writeIdx_eq_mark _ hwf1 hb1
          refine ⟨Game.mark { g with state := GameState.Playing } (x, y)
            (.Counted ((g.scanListE x y).countP (fun q => countedAsMine (g.cellD q)))),
            GameState.Playing, ?_, rfl, rfl, rfl, rfl, mark_length _ _, ?_,
            fun h => absurd h hL, fun _ => ⟨rfl, ?_⟩⟩
          · simp only [Game.uncoverE, if_neg hL, hcR, hcount1]
            simp [hnz, hwrt]
            rfl
          · intro i
            exact map_get?_mark hwf1 hb1 hc1 groundMined
              (show groundMined (CellState.Counted ((g.scanListE x y).countP
                (fun q => countedAsMine (g.cellD q))))
                = groundMined (CellState.Unknown false) from rfl) i
          · intro b2 hb2
            rw [hc] at hb2
            have hb2' : b2 = false := by
              have h2 := Option.some.inj hb2
              injection h2 with h3
              exact h3.symm
            rw [hb2']
            simp
      -- end Unknown
    | Flagged b =>
      cases b with
      | true =>
        have hwrt : Game.writeIdxE { g with state := GameState.Playing } (y * g.width + x)
            (.Known true)
            = some (Game.mark { g with state := GameState.Playing } (x, y) (.Known true)) :=
          writeIdx_eq_mark _ hwf1 hb1
        refine ⟨{ Game.mark { g with state := GameState.Playing } (x, y) (.Known true) with
          state := GameState.Lost }, GameState.Lost, ?_, rfl, rfl, rfl, rfl,
          mark_length _ _, ?_, fun h => absurd h hL, fun _ => ⟨rfl, ?_⟩⟩
        · simp only [Game.uncoverE, if_neg hL, hcR, hwrt]
        · intro i
          show ((Game.mark { g with state := GameState.Playing } (x, y)
            (.Known true)).field_state.get? i).map groundMined
            = (g.field_state.get? i).map groundMined
          exact map_get?_mark hwf1 hb1 hc1 groundMined
            (show groundMined (CellState.Known true)
              = groundMined (CellState.Flagged true) from rfl) i
        · intro b2 hb2
          rw [hc] at hb2
          exact absurd hb2 (by simp)
      | false =>
        have hcount1 : Game.neighbor_countE { g with state := GameState.Playing } x y
            = some ((g.scanListE x y).countP (fun q => countedAsMine (g.cellD q))) := by
          have h1 : Game.neighbor_countE { g with state := GameState.Playing } x y
              = g.neighbor_countE x y :=
            neighbor_count_congr
              (show ({ g with state := GameState.Playing } : Game).width = g.width from rfl)
              (show ({ g with state := GameState.Playing } : Game).height = g.height from rfl)
              (fun i => rfl) x y
          rw [h1]
          exact neighbor_count_some hwf hb
        by_cases hnz : (g.scanListE x y).countP (fun q => countedAsMine (g.cellD q)) = 0
        · rw [hnz] at hcount1
          have hInit : FloodFrame { g with state := GameState.Playing }
              { g with state := GameState.Playing } [(x, y)] := by
            refine ⟨rfl, rfl, rfl, rfl, rfl, rfl, fun i => rfl, ?_⟩
            intro q hq
            simp only [List.mem_singleton] at hq
            subst hq
            refine ⟨hb1, ?_⟩
            rw [hc1]
            rfl
          have hfuelB : 2 * (17 * uCount { g with state := GameState.Playing }
              + ([(x, y)] : List (Int × Int)).length) + 1
              ≤ floodFuel { g with state := GameState.Playing } := by
            show 2 * (17 * uCount g + 1) + 1 ≤ 34 * g.field_state.length + 3
            have hcl : uCount g ≤ g.field_state.length := by
              unfold uCount
              apply List.countP_le_length
            omega
          obtain ⟨g2, hloop, hFr⟩ := floodLoop_total { g with state := GameState.Playing }
            hwf1 { g with state := GameState.Playing } [(x, y)] hInit
            (floodFuel { g with state := GameState.Playing }) hfuelB
          refine ⟨g2, g2.state, ?_, hFr.width_eq, hFr.height_eq, hFr.total_eq,
            hFr.remaining_eq, hFr.len_eq, hFr.mined_eq, fun h => absurd h hL,
            fun _ => ⟨rfl, ?_⟩⟩
          · simp only [Game.uncoverE, if_neg hL, hcR, hcount1]
            simp [hloop]
          · intro b2 hb2
            rw [hc] at hb2
            exact absurd hb2 (by simp)
        · have hwrt : Game.writeIdxE { g with state := GameState.Playing } (y * g.width + x)
              (.Counted ((g.scanListE x y).countP (fun q => countedAsMine (g.cellD q))))
              = some (Game.mark { g with state := GameState.Playing } (x, y)
                (.Counted ((g.scanListE x y).countP (fun q => countedAsMine (g.cellD q))))) :=
            writeIdx_eq_mark _ hwf1 hb1
          refine ⟨Game.mark { g with state := GameState.Playing } (x, y)
            (.Counted ((g.scanListE x y).countP (fun q => countedAsMine (g.cellD q)))),
            GameState.Playing, ?_, rfl, rfl, rfl, rfl, mark_length _ _, ?_,
            fun h => absurd h hL, fun _ => ⟨rfl, ?_⟩⟩
          · simp only [Game.uncoverE, if_neg hL, hcR, hcount1]
            simp [hnz, hwrt]
            rfl
          · intro i
            exact map_get?_mark hwf1 hb1 hc1 groundMined
              (show groundMined (CellState.Counted ((g.scanListE x y).countP
                (fun q => countedAsMine (g.cellD q))))
                = groundMined (CellState.Flagged false) from rfl) i
          · intro b2 hb2
            rw [hc] at hb2
            exact absurd hb2 (by simp)
    | Questioned b =>
      cases b with
      | true =>
        have hwrt : Game.writeIdxE { g with state := GameState.Playing } (y * g.width + x)
            (.Known true)
            = some (Game.mark { g with state := GameState.Playing } (x, y) (.Known true)) :=
          writeIdx_eq_mark _ hwf1 hb1
        refine ⟨{ Game.mark { g with state := GameState.Playing } (x, y) (.Known true) with
          state := GameState.Lost }, GameState.Lost, ?_, rfl, rfl, rfl, rfl,
          mark_length _ _, ?_, fun h => absurd h hL, fun _ => ⟨rfl, ?_⟩⟩
        · simp only [Game.uncoverE, if_neg hL, hcR, hwrt]
        · intro i
          show ((Game.mark { g with state := GameState.Playing } (x, y)
            (.Known true)).field_state.get? i).map groundMined
            = (g.field_state.get? i).map groundMined
          exact map_get?_mark hwf1 hb1 hc1 groundMined
            (show groundMined (CellState.Known true)
              = groundMined (CellState.Questioned true) from rfl) i
        · intro b2 hb2
          rw [hc] at hb2
          exact absurd hb2 (by simp)
      | false =>
        have hcount1 : Game.neighbor_countE { g with state := GameState.Playing } x y
            = some ((g.scanListE x y).countP (fun q => countedAsMine (g.cellD q))) := by
          have h1 : Game.neighbor_countE { g with state := GameState.Playing } x y
              = g.neighbor_countE x y :=
            neighbor_count_congr
              (show ({ g with state := GameState.Playing } : Game).width = g.width from rfl)
              (show ({ g with state := GameState.Playing } : Game).height = g.height from rfl)
              (fun i => rfl) x y
          rw [h1]
          exact neighbor_count_some hwf hb
        by_cases hnz : (g.scanListE x y).countP (fun q => countedAsMine (g.cellD q)) = 0
        · rw [hnz] at hcount1
          have hInit : FloodFrame { g with state := GameState.Playing }
              { g with state := GameState.Playing } [(x, y)] := by
            refine ⟨rfl, rfl, rfl, rfl, rfl, rfl, fun i => rfl, ?_⟩
            intro q hq
            simp only [List.mem_singleton] at hq
            subst hq
            refine ⟨hb1, ?_⟩
            rw [hc1]
            rfl
          have hfuelB : 2 * (17 * uCount { g with state := GameState.Playing }
              + ([(x, y)] : List (Int × Int)).length) + 1
              ≤ floodFuel { g with state := GameState.Playing } := by
            show 2 * (17 * uCount g + 1) + 1 ≤ 34 * g.field_state.length + 3
            have hcl : uCount g ≤ g.field_state.length := by
              unfold uCount
              apply List.countP_le_length
            omega
          obtain ⟨g2, hloop, hFr⟩ := floodLoop_total { g with state := GameState.Playing }
            hwf1 { g with state := GameState.Playing } [(x, y)] hInit
            (floodFuel { g with state := GameState.Playing }) hfuelB
          refine ⟨g2, g2.state, ?_, hFr.width_eq, hFr.height_eq, hFr.total_eq,
            hFr.remaining_eq, hFr.len_eq, hFr.mined_eq, fun h => absurd h hL,
            fun _ => ⟨rfl, ?_⟩⟩
          · simp only [Game.uncoverE, if_neg hL, hcR, hcount1]
            simp [hloop]
          · intro b2 hb2
            rw [hc] at hb2
            exact absurd hb2 (by simp)
        · have hwrt : Game.writeIdxE { g with state := GameState.Playing } (y * g.width + x)
              (.Counted ((g.scanListE x y).countP (fun q => countedAsMine (g.cellD q))))
              = some (Game.mark { g with state := GameState.Playing } (x, y)
                (.Counted ((g.scanListE x y).countP (fun q => countedAsMine (g.cellD q))))) :=
            writeIdx_eq_mark _ hwf1 hb1
          refine ⟨Game.mark { g with state := GameState.Playing } (x, y)
            (.Counted ((g.scanListE x y).countP (fun q => countedAsMine (g.cellD q)))),
            GameState.Playing, ?_, rfl, rfl, rfl, rfl, mark_length _ _, ?_,
            fun h => absurd h hL, fun _ => ⟨rfl, ?_⟩⟩
          · simp only [Game.uncoverE, if_neg hL, hcR, hcount1]
            simp [hnz, hwrt]
            rfl
          · intro i
            exact map_get?_mark hwf1 hb1 hc1 groundMined
              (show groundMined (CellState.Counted ((g.scanListE x y).countP
                (fun q => countedAsMine (g.cellD q))))
                = groundMined (CellState.Questioned false) from rfl) i
          · intro b2 hb2
            rw [hc] at hb2
            exact absurd hb2 (by simp)

-- ### Frame properties of the marking operations

theorem flag_props (g : Game) (x y : Int) (hwf : g.Wf) (hb : inBounds g (x, y)) :
    ∃ g', g.flagE x y = some g' ∧ g'.width = g.width ∧ g'.height = g.height ∧
      g'.total = g.total ∧ g'.field_state.length = g.field_state.length ∧
      g'.state = GameState.Playing ∧
      ∀ i : Nat, (g'.field_state.get? i).map groundMined
        = (g.field_state.get? i).map groundMined := by
  obtain ⟨c, hc, _⟩ := cellAt_isSome hwf hb
  have hc' : g.readIdxE (y * g.width + x) = some c := hc
  obtain ⟨hlt, hgl⟩ := getElem_of_cellAt hwf hb (show g.cellAtE (x, y).1 (x, y).2 = some c from hc)
  cases c with
  | Unknown m =>
    refine ⟨{ g with
        field_state := g.field_state.set (y * g.width + x).toNat (.Flagged m),
        remaining := if 0 < g.remaining then g.remaining - 1 else g.remaining,
        state := .Playing },
      by unfold Game.flagE; rw [hc'], rfl, rfl, rfl, List.length_set _ _ _, rfl, ?_⟩
    intro i
    exact map_get?_set hlt (.Flagged m) groundMined (by rw [hgl]; rfl) i
  | Questioned m =>
    refine ⟨{ g with
        field_state := g.field_state.set (y * g.width + x).toNat (.Flagged m),
        remaining := if 0 < g.remaining then g.remaining - 1 else g.remaining,
        state := .Playing },
      by unfold Game.flagE; rw [hc'], rfl, rfl, rfl, List.length_set _ _ _, rfl, ?_⟩
    intro i
    exact map_get?_set hlt (.Flagged m) groundMined (by rw [hgl]; rfl) i
  | Known m =>
    exact ⟨{ g with state := .Playing },
      by unfold Game.flagE; rw [hc'], rfl, rfl, rfl, rfl, rfl, fun i => rfl⟩
  | Counted k =>
    exact ⟨{ g with state := .Playing },
      by unfold Game.flagE; rw [hc'], rfl, rfl, rfl, rfl, rfl, fun i => rfl⟩
  | Flagged m =>
    exact ⟨{ g with state := .Playing },
      by unfold Game.flagE; rw [hc'], rfl, rfl, rfl, rfl, rfl, fun i => rfl⟩

theorem question_props (g : Game) (x y : Int) (hwf : g.Wf) (hb : inBounds g (x, y)) :
    ∃ g', g.questionE x y = some g' ∧ g'.width = g.width ∧ g'.height = g.height ∧
      g'.total = g.total ∧ g'.field_state.length = g.field_state.length ∧
      g'.state = GameState.Playing ∧
      ∀ i : Nat, (g'.field_state.get? i).map groundMined
        = (g.field_state.get? i).map groundMined := by
  obtain ⟨c, hc, _⟩ := cellAt_isSome hwf hb
  have hc' : g.readIdxE (y * g.width + x) = some c := hc
  obtain ⟨hlt, hgl⟩ := getElem_of_cellAt hwf hb (show g.cellAtE (x, y).1 (x, y).2 = some c from hc)
  cases c with
  | Unknown m =>
    refine ⟨{ g with
        field_state := g.field_state.set (y * g.width + x).toNat (.Questioned m),
        state := .Playing },
      by unfold Game.questionE; rw [hc'], rfl, rfl, rfl, List.length_set _ _ _, rfl, ?_⟩
    intro i
    exact map_get?_set hlt (.Questioned m) groundMined (by rw [hgl]; rfl) i
  | Flagged m =>
    refine ⟨{ g with
        field_state := g.field_state.set (y * g.width + x).toNat (.Questioned m),
        remaining := g.remaining + 1,
        state := .Playing },
      by unfold Game.questionE; rw [hc'], rfl, rfl, rfl, List.length_set _ _ _, rfl, ?_⟩
    intro i
    exact map_get?_set hlt (.Questioned m) groundMined (by rw [hgl]; rfl) i
  | Known m =>
    exact ⟨{ g with state := .Playing },
      by unfold Game.questionE; rw [hc'], rfl, rfl, rfl, rfl, rfl, fun i => rfl⟩
  | Counted k =>
    exact ⟨{ g with state := .Playing },
      by unfold Game.questionE; rw [hc'], rfl, rfl, rfl, rfl, rfl, fun i => rfl⟩
  | Questioned m =>
    exact ⟨{ g with state := .Playing },
      by unfold Game.questionE; rw [hc'], rfl, rfl, rfl, rfl, rfl, fun i => rfl⟩

theorem set_unknown_props (g : Game) (x y : Int) (hwf : g.Wf) (hb : inBounds g (x, y)) :
    ∃ g', g.set_unknownE x y = some g' ∧ g'.width = g.width ∧ g'.height = g.height ∧
      g'.total = g.total ∧ g'.field_state.length = g.field_state.length ∧
      g'.state = g.state ∧
      ∀ i : Nat, (g'.field_state.get? i).map groundMined
        = (g.field_state.get? i).map groundMined := by
  obtain ⟨c, hc, _⟩ := cellAt_isSome hwf hb
  have hc' : g.readIdxE (y * g.width + x) = some c := hc
  obtain ⟨hlt, hgl⟩ := getElem_of_cellAt hwf hb (show g.cellAtE (x, y).1 (x, y).2 = some c from hc)
  cases c with
  | Flagged m =>
    refine ⟨{ g with
        field_state := g.field_state.set (y * g.width + x).toNat (.Unknown m),
        remaining := g.remaining + 1 },
      by unfold Game.set_unknownE; rw [hc'], rfl, rfl, rfl, List.length_set _ _ _, rfl, ?_⟩
    intro i
    exact map_get?_set hlt (.Unknown m) groundMined (by rw [hgl]; rfl) i
  | Known m =>
    refine ⟨{ g with
        field_state := g.field_state.set (y * g.width + x).toNat (.Unknown m) },
      by unfold Game.set_unknownE; rw [hc'], rfl, rfl, rfl, List.length_set _ _ _, rfl, ?_⟩
    intro i
    exact map_get?_set hlt (.Unknown m) groundMined (by rw [hgl]; rfl) i
  | Questioned m =>
    refine ⟨{ g with
        field_state := g.field_state.set (y * g.width + x).toNat (.Unknown m) },
      by unfold Game.set_unknownE; rw [hc'], rfl, rfl, rfl, List.length_set _ _ _, rfl, ?_⟩
    intro i
    exact map_get?_set hlt (.Unknown m) groundMined (by rw [hgl]; rfl) i
  | Counted k =>
    refine ⟨{ g with
        field_state := g.field_state.set (y * g.width + x).toNat (.Unknown false) },
      by unfold Game.set_unknownE; rw [hc'], rfl, rfl, rfl, List.length_set _ _ _, rfl, ?_⟩
    intro i
    exact map_get?_set hlt (.Unknown false) groundMined (by rw [hgl]; rfl) i
  | Unknown m =>
    exact ⟨g, by unfold Game.set_unknownE; rw [hc'], rfl, rfl, rfl, rfl, rfl, fun i => rfl⟩

theorem show_mined_props (g : Game) :
    g.show_mined.width = g.width ∧ g.show_mined.height = g.height ∧
      g.show_mined.total = g.total ∧
      g.show_mined.field_state.length = g.field_state.length ∧
      g.show_mined.state = g.state ∧
      ∀ i : Nat, (g.show_mined.field_state.get? i).map groundMined
        = (g.field_state.get? i).map groundMined := by
  refine ⟨rfl, rfl, rfl, List.length_map _ _, rfl, ?_⟩
  intro i
  show ((g.field_state.map _).get? i).map groundMined = _
  rw [List.get?_map]
  cases hgi : g.field_state.get? i with
  | none => rfl
  | some c =>
    show some (groundMined (if c = CellState.Unknown true then CellState.Known true else c))
      = some (groundMined c)
    by_cases hcu : c = CellState.Unknown true
    · rw [if_pos hcu, hcu]
      rfl
    · rw [if_neg hcu]

-- ### C6

/-- First-action phase change on the exact-index model: on a fresh board
(phase `Initial`, every cell covered), `uncoverE`, `flagE` and
`questionE` each put the board in phase `Playing` (or `Lost` when the
uncovered cell was mined), while `set_unknownE` never touches the
phase. -/
theorem first_action_core (g : Game) (x y : Int) (hwf : g.Wf) (hini : g.state = .Initial)
    (hfresh : ∀ c ∈ g.field_state, ∃ m, c = CellState.Unknown m) (hb : inBounds g (x, y)) :
    (∃ g', g.flagE x y = some g' ∧ g'.state = .Playing) ∧
    (∃ g', g.questionE x y = some g' ∧ g'.state = .Playing) ∧
    (∃ g', g.set_unknownE x y = some g' ∧ g'.state = .Initial) ∧
    (∀ m, g.cellAtE x y = some (.Unknown m) →
      ∃ g', g.uncoverE x y = some (g', if m then .Lost else .Playing) ∧
        g'.state = (if m then GameState.Lost else GameState.Playing)) := by
  refine ⟨?_, ?_, ?_, ?_⟩
  · obtain ⟨g', h1, _, _, _, _, h2, _⟩ := flag_props g x y hwf hb
    exact ⟨g', h1, h2⟩
  · obtain ⟨g', h1, _, _, _, _, h2, _⟩ := question_props g x y hwf hb
    exact ⟨g', h1, h2⟩
  · obtain ⟨g', h1, _, _, _, _, h2, _⟩ := set_unknown_props g x y hwf hb
    exact ⟨g', h1, by rw [h2, hini]⟩
  · intro m hm
    obtain ⟨g', s, he, _, _, _, _, _, _, _, hnl⟩ := uncover_props g x y hwf hb
    have hL : g.state ≠ .Lost := by
      rw [hini]
      simp
    obtain ⟨hst, hcl⟩ := hnl hL
    have hs := hcl m hm
    refine ⟨g', ?_, ?_⟩
    · rw [← hs]
      exact he
    · rw [hst, hs]

-- ### C7

theorem cmd_inB_congr {g g1 : Game} (hW : g1.width = g.width) (hH : g1.height = g.height)
    {c : Cmd} (h : c.inB g) : c.inB g1 := by
  intro p hp
  exact (inBounds_eq_of hW hH p).2 (h p hp)

/-- Ground-truth immutability on the exact-index model: running any
sequence of in-bounds commands succeeds and preserves, cell by cell,
whether the cell's state denotes a mine. -/
theorem ground_truth_core (g : Game) (cmds : List Cmd) (hwf : g.Wf)
    (hin : ∀ c ∈ cmds, c.inB g) :
    ∃ g', runCmdsE g cmds = some g' ∧
      g'.field_state.length = g.field_state.length ∧
      ∀ i : Nat, (g'.field_state.get? i).map groundMined
        = (g.field_state.get? i).map groundMined := by
  induction cmds generalizing g with
  | nil => exact ⟨g, rfl, rfl, fun i => rfl⟩
  | cons c cs ih =>
    have hc := hin c (by simp)
    have hcs : ∀ d ∈ cs, d.inB g := fun d hd => hin d (by simp [hd])
    have hstep : ∃ g1, applyCmdE g c = some g1 ∧ g1.width = g.width ∧
        g1.height = g.height ∧ g1.field_state.length = g.field_state.length ∧
        ∀ i : Nat, (g1.field_state.get? i).map groundMined
          = (g.field_state.get? i).map groundMined := by
      cases c with
      | uncover cx cy =>
        obtain ⟨g1, s, he, hw, hh, _, _, hl, hm, _, _⟩ :=
          uncover_props g cx cy hwf (hc (cx, cy) rfl)
        refine ⟨g1, ?_, hw, hh, hl, hm⟩
        show (g.uncoverE cx cy).map (fun r => r.1) = some g1
        rw [he]
        rfl
      | flag cx cy =>
        obtain ⟨g1, he, hw, hh, _, hl, _, hm⟩ := flag_props g cx cy hwf (hc (cx, cy) rfl)
        exact ⟨g1, he, hw, hh, hl, hm⟩
      | question cx cy =>
        obtain ⟨g1, he, hw, hh, _, hl, _, hm⟩ := question_props g cx cy hwf (hc (cx, cy) rfl)
        exact ⟨g1, he, hw, hh, hl, hm⟩
      | set_unknown cx cy =>
        obtain ⟨g1, he, hw, hh, _, hl, _, hm⟩ := set_unknown_props g cx cy hwf (hc (cx, cy) rfl)
        exact ⟨g1, he, hw, hh, hl, hm⟩
      | show_mined =>
        obtain ⟨hw, hh, _, hl, _, hm⟩ := show_mined_props g
        exact ⟨g.show_mined, rfl, hw, hh, hl, hm⟩
    obtain ⟨g1, he, hw, hh, hl, hm⟩ := hstep
    have hwf1 : g1.Wf := wf_of_frame hwf hw hh hl
    obtain ⟨g2, hrun, hlen2, hm2⟩ := ih g1 hwf1 (fun d hd => cmd_inB_congr hw hh (hcs d hd))
    refine ⟨g2, ?_, by rw [hlen2, hl], fun i => (hm2 i).trans (hm i)⟩
    unfold runCmdsE
    rw [he]
    exact hrun

-- ### The region list is exactly the maximal zero-cell component

theorem get_zero_of_chain {s : Int × Int} {R : List (Int × Int)}
    (hhead : R.head? = some s) (i : Fin R.length) (h0 : (i : Nat) = 0) : R.get i = s := by
  cases R with
  | nil => exact absurd i.2 (by simp)
  | cons b t =>
    simp only [List.head?_cons, Option.some.injEq] at hhead
    have hi : i = ⟨0, by simp⟩ := Fin.ext h0
    rw [hi, hhead]
    rfl

theorem region_eq_reach {g : Game} {s : Int × Int} {R : List (Int × Int)}
    (hspec : RegionSpecE g s R) (hzs : zeroCellE g s) :
    ∀ q, q ∈ R ↔ ReachZeroE g s q := by
  obtain ⟨⟨hhead, hchain⟩, hzero, hclosed⟩ := hspec
  have hsR : s ∈ R := List.mem_of_mem_head? (by rw [hhead]; rfl)
  intro q
  constructor
  · intro hq
    obtain ⟨i, hi⟩ := List.mem_iff_get.1 hq
    subst hi
    have aux : ∀ k : Nat, ∀ i : Fin R.length, (i : Nat) ≤ k → ReachZeroE g s (R.get i) := by
      intro k
      induction k with
      | zero =>
        intro i hik
        rw [get_zero_of_chain hhead i (by omega)]
        exact Relation.ReflTransGen.refl
      | succ k ihk =>
        intro i hik
        by_cases hi0 : (i : Nat) = 0
        · rw [get_zero_of_chain hhead i hi0]
          exact Relation.ReflTransGen.refl
        · obtain ⟨j, hji, hnb⟩ := hchain i (by omega)
          have hreach_j := ihk j (by omega)
          exact Relation.ReflTransGen.tail hreach_j
            ⟨hnb, hzero _ (List.get_mem R i.1 i.2)⟩
    exact aux i i le_rfl
  · intro hreach
    induction hreach with
    | refl => exact hsR
    | tail hab hbc ih =>
      obtain ⟨hnb, hzc⟩ := hbc
      exact hclosed _ ih _ hnb hzc.1 hzc

-- ### Transfer lemmas between games with equal counted-mine maps

theorem cellAt_map_of_maps {g1 g2 : Game} (hW : g1.width = g2.width)
    (f : CellState → Bool)
    (hmap : ∀ i : Nat, (g1.field_state.get? i).map f = (g2.field_state.get? i).map f)
    (x y : Int) : (g1.cellAtE x y).map f = (g2.cellAtE x y).map f := by
  unfold Game.cellAtE Game.readIdxE
  rw [hW]
  by_cases hneg : y * g2.width + x < 0
  · rw [if_pos hneg, if_pos hneg]
  · rw [if_neg hneg, if_neg hneg]
    exact hmap _

-- ### Region-invariant preservation through one flood step

theorem border_count_ne {g0 : Game} {R : List (Int × Int)} (hwf0 : g0.Wf)
    (hRclosed : RegionClosedE g0 R)
    (hBU : ∀ q, IsBorder g0 R q → g0.cellAtE q.1 q.2 = some (.Unknown false))
    {q : Int × Int} (hq : IsBorder g0 R q) :
    ∃ n, g0.neighbor_countE q.1 q.2 = some n ∧ n ≠ 0 := by
  obtain ⟨hqB, hqnR, r, hrR, hqnb⟩ := hq
  have hcnt := neighbor_count_some hwf0 (show inBounds g0 (q.1, q.2) from hqB)
  refine ⟨_, hcnt, ?_⟩
  intro h0
  apply hqnR
  refine hRclosed r hrR q hqnb hqB ⟨hqB, by rw [hcnt, h0], ?_⟩
  rw [hBU q ⟨hqB, hqnR, r, hrR, hqnb⟩]
  rfl

set_option maxHeartbeats 2000000 in
theorem floodInv_step (g0 : Game) (R : List (Int × Int)) (s : Int × Int)
    (hwf0 : g0.Wf)
    (hseed0 : g0.cellAtE s.1 s.2 = some (.Unknown false) ∨
      g0.cellAtE s.1 s.2 = some (.Flagged false) ∨
      g0.cellAtE s.1 s.2 = some (.Questioned false))
    (hRzero : ∀ p ∈ R, zeroCellE g0 p) (hRclosed : RegionClosedE g0 R) (hseedR : s ∈ R)
    (hRU : ∀ p ∈ R, p ≠ s → g0.cellAtE p.1 p.2 = some (.Unknown false))
    (hBU : ∀ q, IsBorder g0 R q → g0.cellAtE q.1 q.2 = some (.Unknown false)) :
    ∀ g p rest, FloodInv g0 R s g (p :: rest) →
      ∃ g' st', (∀ f, floodLoopE g (p :: rest) (f + 1) = floodLoopE g' st' f) ∧
        FloodInv g0 R s g' st' ∧
        floodMeasure g' st' ≤ floodMeasure g (p :: rest) + 8 ∧
        (g.cellAtE p.1 p.2 = some (.Unknown false) →
          floodMeasure g' st' + 9 ≤ floodMeasure g (p :: rest)) ∧
        (floodMeasure g' st' + 1 ≤ floodMeasure g (p :: rest) ∨
          ∃ c rest2, st' = c :: rest2 ∧ g'.cellAtE c.1 c.2 = some (.Unknown false)) := by
  intro g p rest hI
  have hwf : g.Wf := wf_of_frame hwf0 hI.width_eq hI.height_eq hI.len_eq
  have hIB : ∀ q, inBounds g q ↔ inBounds g0 q :=
    fun q => inBounds_eq_of hI.width_eq hI.height_eq q
  have hpRB := hI.stack_closure p (by simp)
  have hp0 : inBounds g0 p := by
    rcases hpRB with hpR | hpB
    · exact (hRzero p hpR).1
    · exact hpB.1
  have hp : inBounds g p := (hIB p).2 hp0
  -- the closure cell's original wrapper is never Known(false) or Counted
  have hg0val : ∀ q, q ∈ R ∨ IsBorder g0 R q →
      g0.cellAtE q.1 q.2 = some (.Unknown false) ∨
      g0.cellAtE q.1 q.2 = some (.Flagged false) ∨
      g0.cellAtE q.1 q.2 = some (.Questioned false) := by
    intro q hq
    rcases hq with hqR | hqB
    · by_cases hqs : q = s
      · rw [hqs]
        exact hseed0
      · exact Or.inl (hRU q hqR hqs)
    · exact Or.inl (hBU q hqB)
  have hg0ne : ∀ q, q ∈ R ∨ IsBorder g0 R q →
      (g0.cellAtE q.1 q.2 ≠ some (.Known false) ∧
        ∀ k : Nat, g0.cellAtE q.1 q.2 ≠ some (.Counted k)) := by
    intro q hq
    rcases hg0val q hq with h | h | h <;> rw [h] <;> exact ⟨by simp, fun k => by simp⟩
  -- the current cell at p and its counted-as-mine value
  obtain ⟨cp, hcp, _⟩ := cellAt_isSome hwf hp
  have hcmp : countedAsMine cp = false := by
    have h1 := cellAt_map_of_maps hI.width_eq countedAsMine hI.cm_eq p.1 p.2
    rw [hcp] at h1
    rcases hg0val p hpRB with h | h | h <;> rw [h] at h1 <;>
      simpa [countedAsMine] using h1
  -- counts agree with the original board
  have hcc : g.neighbor_countE p.1 p.2 = g0.neighbor_countE p.1 p.2 :=
    neighbor_count_congr hI.width_eq hI.height_eq hI.cm_eq p.1 p.2
  obtain ⟨n, g', st', hcount, hunf, hbranch, hm8, hmU, hmd⟩ := flood_step_core rest hwf hp
  refine ⟨g', st', hunf, ?_, hm8, hmU, hmd⟩
  rcases hbranch with ⟨hz, hg', hst'⟩ | ⟨hnz, hg', hst'⟩
  · -- zero branch: p must be a region cell
    subst hz
    have hpR : p ∈ R := by
      rcases hpRB with hpR | hpB
      · exact hpR
      · obtain ⟨nB, hnB, hnB0⟩ := border_count_ne hwf0 hRclosed hBU hpB
        rw [hcount] at hcc
        rw [hnB] at hcc
        exact absurd (Option.some.inj hcc).symm hnB0
    subst hg'
    subst hst'
    have hmrk : ∀ q, inBounds g q →
        (g.mark p (.Known false)).cellAtE q.1 q.2
          = if q = p then some (.Known false) else g.cellAtE q.1 q.2 :=
      fun q hq => cellAt_mark _ hwf hp q hq
    have hmarkedp : (g.mark p (.Known false)).cellAtE p.1 p.2 = some (.Known false) := by
      rw [hmrk p hp, if_pos rfl]
    have hcmK : countedAsMine (CellState.Known false) = countedAsMine cp := by
      rw [hcmp]
      rfl
    refine ⟨hI.width_eq, hI.height_eq, hI.state_eq, hI.remaining_eq, hI.total_eq,
      by rw [mark_length]; exact hI.len_eq, ?_, ?_, ?_, ?_, ?_, ?_, ?_⟩
    · -- cm_eq
      intro i
      exact (map_get?_mark hwf hp hcp countedAsMine hcmK i).trans (hI.cm_eq i)
    · -- out_frame
      intro q hqB hqnR hqnBd
      have hqp : q ≠ p := fun hEq => hqnR (hEq ▸ hpR)
      rw [hmrk q ((hIB q).2 hqB), if_neg hqp]
      exact hI.out_frame q hqB hqnR hqnBd
    · -- regC
      intro r hrR
      by_cases hrp : r = p
      · subst hrp
        exact Or.inr hmarkedp
      · rw [hmrk r ((hIB r).2 (hRzero r hrR).1), if_neg hrp]
        exact hI.regC r hrR
    · -- borC
      intro q hqBd
      have hqp : q ≠ p := fun hEq => hqBd.2.1 (hEq ▸ hpR)
      rw [hmrk q ((hIB q).2 hqBd.1), if_neg hqp]
      exact hI.borC q hqBd
    · -- stack_closure
      intro c hc
      rcases List.mem_append.1 hc with hc | hc
      · have hcp2 := (mem_pushesAt (mark_wf hwf p _) hp).1 (List.mem_reverse.1 hc)
        have hcB : inBounds g0 c := ((hIB c).1 ((inBounds_eq_of rfl rfl c).2 hcp2.2.1))
        by_cases hcR : c ∈ R
        · exact Or.inl hcR
        · exact Or.inr ⟨hcB, hcR, p, hpR, hcp2.1⟩
      · exact hI.stack_closure c (by simp [hc])
    · -- seed_state
      rcases hI.seed_state with hs | ⟨hgg0, hstack⟩
      · left
        by_cases hsp : s = p
        · rw [hsp]
          exact hmarkedp
        · rw [hmrk s ((hIB s).2 (hRzero s hseedR).1), if_neg hsp]
          exact hs
      · left
        have hps : p = s := by
          have := congrArg List.head? hstack
          simpa using this
        rw [← hps]
        exact hmarkedp
    · -- complete
      intro r hrR hrK q hqnb hqC
      have hqB0 : inBounds g0 q := by
        rcases hqC with hqR | hqBd
        · exact (hRzero q hqR).1
        · exact hqBd.1
      have hqg : inBounds g q := (hIB q).2 hqB0
      have hqp_or : q = p ∨ q ≠ p := em _
      by_cases hrp : r = p
      · -- freshly marked cell: every closure neighbour is marked or pushed
        subst hrp
        have hqnr : q ≠ r := ne_of_mem_nbrs hqnb
        by_cases hqU : (Game.mark g r (.Known false)).cellAtE q.1 q.2
            = some (.Unknown false)
        · right
          apply List.mem_append.2
          left
          apply List.mem_reverse.2
          exact (mem_pushesAt (mark_wf hwf r _) hp).2 ⟨hqnb, (inBounds_eq_of rfl rfl q).1 hqg, hqU⟩
        · left
          -- q is already marked: its current value differs from the original
          rw [hmrk q hqg, if_neg hqnr] at hqU ⊢
          by_cases hqs : q = s
          · rcases hI.seed_state with hs | ⟨hgg0, hstack⟩
            · rw [hqs, hs]
              rw [hqs] at hqU
              intro hEq
              rcases hg0val s (Or.inl hseedR) with h | h | h <;> rw [h] at hEq <;>
                simp at hEq
            · have hps : r = s := by
                have := congrArg List.head? hstack
                simpa using this
              exact absurd (hqs.trans hps.symm) hqnr
          · have hq0 : g0.cellAtE q.1 q.2 = some (.Unknown false) := by
              rcases hqC with hqR | hqBd
              · exact hRU q hqR hqs
              · exact hBU q hqBd
            rw [hq0]
            intro hEq
            exact hqU hEq
      · -- previously marked cell: use the old invariant
        have hrK' : g.cellAtE r.1 r.2 = some (.Known false) := by
          rw [hmrk r ((hIB r).2 (hRzero r hrR).1), if_neg hrp] at hrK
          exact hrK
        rcases hI.complete r hrR hrK' q hqnb hqC with hmq | hq_st
        · left
          by_cases hqp : q = p
          · subst hqp
            rw [hmarkedp]
            intro hEq
            exact (hg0ne q hqC).1 hEq.symm
          · rw [hmrk q hqg, if_neg hqp]
            exact hmq
        · rcases List.mem_cons.1 hq_st with hqp | hqrest
          · left
            subst hqp
            rw [hmarkedp]
            intro hEq
            exact (hg0ne q hqC).1 hEq.symm
          · right
            exact List.mem_append.2 (Or.inr hqrest)
  · -- nonzero branch: p must be a border cell
    have hpB : IsBorder g0 R p := by
      rcases hpRB with hpR | hpB
      · exfalso
        have h0 : g0.neighbor_countE p.1 p.2 = some 0 := (hRzero p hpR).2.1
        rw [hcount, h0] at hcc
        exact hnz (Option.some.inj hcc)
      · exact hpB
    have hpnR : p ∉ R := hpB.2.1
    subst hg'
    subst hst'
    have hmrk : ∀ q, inBounds g q →
        (g.mark p (.Counted n)).cellAtE q.1 q.2
          = if q = p then some (.Counted n) else g.cellAtE q.1 q.2 :=
      fun q hq => cellAt_mark _ hwf hp q hq
    have hmarkedp : (g.mark p (.Counted n)).cellAtE p.1 p.2 = some (.Counted n) := by
      rw [hmrk p hp, if_pos rfl]
    have hcmC : countedAsMine (CellState.Counted n) = countedAsMine cp := by
      rw [hcmp]
      rfl
    have hcount0 : g0.neighbor_countE p.1 p.2 = some n := by
      rw [← hcc]
      exact hcount
    refine ⟨hI.width_eq, hI.height_eq, hI.state_eq, hI.remaining_eq, hI.total_eq,
      by rw [mark_length]; exact hI.len_eq, ?_, ?_, ?_, ?_, ?_, ?_, ?_⟩
    · intro i
      exact (map_get?_mark hwf hp hcp countedAsMine hcmC i).trans (hI.cm_eq i)
    · intro q hqB hqnR hqnBd
      have hqp : q ≠ p := fun hEq => hqnBd (hEq ▸ hpB)
      rw [hmrk q ((hIB q).2 hqB), if_neg hqp]
      exact hI.out_frame q hqB hqnR hqnBd
    · intro r hrR
      have hrp : r ≠ p := fun hEq => hpnR (hEq ▸ hrR)
      rw [hmrk r ((hIB r).2 (hRzero r hrR).1), if_neg hrp]
      exact hI.regC r hrR
    · intro q hqBd
      by_cases hqp : q = p
      · subst hqp
        exact Or.inr ⟨n, hcount0, hmarkedp⟩
      · rw [hmrk q ((hIB q).2 hqBd.1), if_neg hqp]
        exact hI.borC q hqBd
    · intro c hc
      exact hI.stack_closure c (by simp [hc])
    · rcases hI.seed_state with hs | ⟨hgg0, hstack⟩
      · left
        have hsp : s ≠ p := fun hEq => hpnR (hEq ▸ hseedR)
        rw [hmrk s ((hIB s).2 (hRzero s hseedR).1), if_neg hsp]
        exact hs
      · exfalso
        have hps : p = s := by
          have := congrArg List.head? hstack
          simpa using this
        exact hpnR (hps ▸ hseedR)
    · intro r hrR hrK q hqnb hqC
      have hrp : r ≠ p := fun hEq => hpnR (hEq ▸ hrR)
      have hqB0 : inBounds g0 q := by
        rcases hqC with hqR | hqBd
        · exact (hRzero q hqR).1
        · exact hqBd.1
      have hqg : inBounds g q := (hIB q).2 hqB0
      have hrK' : g.cellAtE r.1 r.2 = some (.Known false) := by
        rw [hmrk r ((hIB r).2 (hRzero r hrR).1), if_neg hrp] at hrK
        exact hrK
      rcases hI.complete r hrR hrK' q hqnb hqC with hmq | hq_st
      · left
        by_cases hqp : q = p
        · subst hqp
          rw [hmarkedp]
          intro hEq
          exact (hg0ne q hqC).2 n hEq.symm
        · rw [hmrk q hqg, if_neg hqp]
          exact hmq
      · rcases List.mem_cons.1 hq_st with hqp | hqrest
        · left
          subst hqp
          rw [hmarkedp]
          intro hEq
          exact (hg0ne q hqC).2 n hEq.symm
        · exact Or.inr hqrest

-- ### Reading off the flood result from the drained invariant

theorem floodInv_final (g0 : Game) (R : List (Int × Int)) (s : Int × Int)
    (hwf0 : g0.Wf) (hRzero : ∀ p ∈ R, zeroCellE g0 p) (hRclosed : RegionClosedE g0 R)
    (hhead : R.head? = some s)
    (hchain : ∀ i : Fin R.length, 0 < (i : Nat) →
      ∃ j : Fin R.length, (j : Nat) < (i : Nat) ∧ R.get i ∈ nbrs (R.get j))
    (hBU : ∀ q, IsBorder g0 R q → g0.cellAtE q.1 q.2 = some (.Unknown false))
    (g2 : Game) (hI : FloodInv g0 R s g2 []) :
    (∀ p ∈ R, g2.cellAtE p.1 p.2 = some (.Known false)) ∧
    (∀ q, IsBorder g0 R q → ∃ n, g0.neighbor_countE q.1 q.2 = some n ∧ n ≠ 0 ∧
      g2.cellAtE q.1 q.2 = some (.Counted n)) := by
  have hseed_marked : g2.cellAtE s.1 s.2 = some (.Known false) := by
    rcases hI.seed_state with hs | ⟨_, hstack⟩
    · exact hs
    · exact absurd hstack (by simp)
  have hRmarked : ∀ p ∈ R, g2.cellAtE p.1 p.2 = some (.Known false) := by
    have aux : ∀ k : Nat, ∀ i : Fin R.length, (i : Nat) ≤ k →
        g2.cellAtE (R.get i).1 (R.get i).2 = some (.Known false) := by
      intro k
      induction k with
      | zero =>
        intro i hik
        rw [get_zero_of_chain hhead i (by omega)]
        exact hseed_marked
      | succ k ihk =>
        intro i hik
        by_cases hi0 : (i : Nat) = 0
        · rw [get_zero_of_chain hhead i hi0]
          exact hseed_marked
        · obtain ⟨j, hji, hnb⟩ := hchain i (by omega)
          have hjK := ihk j (by omega)
          have hcomp := hI.complete (R.get j) (List.get_mem R j.1 j.2) hjK (R.get i) hnb
            (Or.inl (List.get_mem R i.1 i.2))
          rcases hcomp with hmk | hin
          · rcases hI.regC (R.get i) (List.get_mem R i.1 i.2) with hEq | hK
            · exact absurd hEq hmk
            · exact hK
          · exact absurd hin (by simp)
    intro p hp
    obtain ⟨i, hi⟩ := List.mem_iff_get.1 hp
    rw [← hi]
    exact aux i i le_rfl
  refine ⟨hRmarked, ?_⟩
  intro q hq
  obtain ⟨nB, hnB, hnB0⟩ := border_count_ne hwf0 hRclosed hBU hq
  obtain ⟨hqB, hqnR, r, hrR, hqnb⟩ := hq
  have hrK := hRmarked r hrR
  have hcomp := hI.complete r hrR hrK q hqnb (Or.inr ⟨hqB, hqnR, r, hrR, hqnb⟩)
  rcases hcomp with hmk | hin
  · rcases hI.borC q ⟨hqB, hqnR, r, hrR, hqnb⟩ with hEq | ⟨n, hn, hcell⟩
    · exact absurd hEq hmk
    · refine ⟨n, hn, ?_, hcell⟩
      intro h0
      rw [hn] at hnB
      have : n = nB := Option.some.inj hnB
      omega
  · exact absurd hin (by simp)

-- ### C1

set_option maxHeartbeats 2000000 in
/-- Flood-reveal correctness on the exact-index model: an in-bounds click
at a covered safe zero-count cell, with a certified maximal region list
`R` whose other cells and border ring are exactly `Unknown(false)`, on a
not-lost board with no revealed mine, reveals exactly `R` as
`Known(false)`, rewrites exactly the border ring to `Counted(n)` with
the true ground counts, and leaves the rest unchanged. -/
theorem flood_reveal_core (g : Game) (x y : Int) (R : List (Int × Int))
    (hwf : g.Wf) (hb : inBounds g (x, y)) (hnl : ¬ g.state = GameState.Lost)
    (hseed : g.cellAtE x y = some (.Unknown false) ∨ g.cellAtE x y = some (.Flagged false) ∨
      g.cellAtE x y = some (.Questioned false))
    (hzero : g.neighbor_countE x y = some 0)
    (hspec : RegionSpecE g (x, y) R)
    (hRU : ∀ p ∈ R, p ≠ (x, y) → g.cellAtE p.1 p.2 = some (.Unknown false))
    (hBUl : ∀ r ∈ R, ∀ q ∈ nbrs r, q ∉ R → inBounds g q →
      g.cellAtE q.1 q.2 = some (.Unknown false))
    (hnk : ∀ c ∈ g.field_state, c ≠ CellState.Known true) :
    (∀ q, q ∈ R ↔ ReachZeroE g (x, y) q) ∧
    ∃ g', g.uncoverE x y = some (g', GameState.Playing) ∧
      g'.width = g.width ∧ g'.height = g.height ∧
      g'.field_state.length = g.field_state.length ∧
      (∀ p ∈ R, g'.cellAtE p.1 p.2 = some (.Known false)) ∧
      (∀ q, IsBorder g R q → ∃ n, g.neighbor_countE q.1 q.2 = some n ∧ n ≠ 0 ∧
        n = g.groundCountE q.1 q.2 ∧ g'.cellAtE q.1 q.2 = some (.Counted n)) ∧
      (∀ q, inBounds g q → q ∉ R → ¬ IsBorder g R q →
        g'.cellAtE q.1 q.2 = g.cellAtE q.1 q.2) := by
  obtain ⟨⟨hhead, hchain⟩, hRzero, hRclosed⟩ := hspec
  have hseedR : (x, y) ∈ R := List.mem_of_mem_head? (by rw [hhead]; rfl)
  have hBU : ∀ q, IsBorder g R q → g.cellAtE q.1 q.2 = some (.Unknown false) := by
    intro q hq
    obtain ⟨hqB, hqnR, r, hrR, hqnb⟩ := hq
    exact hBUl r hrR q hqnb hqnR hqB
  have hzs : zeroCellE g (x, y) := by
    refine ⟨hb, hzero, ?_⟩
    rcases hseed with h | h | h <;> rw [h] <;> rfl
  have hchar := region_eq_reach ⟨⟨hhead, hchain⟩, hRzero, hRclosed⟩ hzs
  refine ⟨hchar, ?_⟩
  have hwf1 : Game.Wf { g with state := GameState.Playing } := hwf
  have hEqc : ∀ a b : Int, Game.neighbor_countE { g with state := GameState.Playing } a b
      = g.neighbor_countE a b := fun a b =>
    neighbor_count_congr
      (show ({ g with state := GameState.Playing } : Game).width = g.width from rfl)
      (show ({ g with state := GameState.Playing } : Game).height = g.height from rfl)
      (fun i => rfl) a b
  have hzcIff : ∀ p, zeroCellE { g with state := GameState.Playing } p ↔ zeroCellE g p := by
    intro p
    unfold zeroCellE
    rw [hEqc p.1 p.2]
    exact Iff.rfl
  have hRzero1 : ∀ p ∈ R, zeroCellE { g with state := GameState.Playing } p :=
    fun p hp => (hzcIff p).2 (hRzero p hp)
  have hRclosed1 : RegionClosedE { g with state := GameState.Playing } R :=
    fun p hp q hq hqB hqz => hRclosed p hp q hq hqB ((hzcIff q).1 hqz)
  have hseed1 : Game.cellAtE { g with state := GameState.Playing } x y
        = some (.Unknown false) ∨
      Game.cellAtE { g with state := GameState.Playing } x y = some (.Flagged false) ∨
      Game.cellAtE { g with state := GameState.Playing } x y = some (.Questioned false) :=
    hseed
  have hRU1 : ∀ p ∈ R, p ≠ (x, y) →
      Game.cellAtE { g with state := GameState.Playing } p.1 p.2
        = some (.Unknown false) := hRU
  have hBU1 : ∀ q, IsBorder { g with state := GameState.Playing } R q →
      Game.cellAtE { g with state := GameState.Playing } q.1 q.2
        = some (.Unknown false) := hBU
  have hInit : FloodInv { g with state := GameState.Playing } R (x, y)
      { g with state := GameState.Playing } [(x, y)] := by
    refine ⟨rfl, rfl, rfl, rfl, rfl, rfl, fun i => rfl, fun q _ _ _ => rfl,
      fun p _ => Or.inl rfl, fun q _ => Or.inl rfl, ?_, Or.inr ⟨rfl, rfl⟩, ?_⟩
    · intro c hc
      simp only [List.mem_singleton] at hc
      subst hc
      exact Or.inl hseedR
    · intro r hrR hmark q hqnb hqC
      exfalso
      have h2 : g.cellAtE r.1 r.2 = some (.Known false) := hmark
      by_cases hrs : r = (x, y)
      · subst hrs
        rcases hseed with h | h | h <;> rw [h] at h2 <;> simp at h2
      · rw [hRU r hrR hrs] at h2
        simp at h2
  have hfuelB : 2 * (17 * uCount { g with state := GameState.Playing } + 1) + 1
      ≤ floodFuel { g with state := GameState.Playing } := by
    show 2 * (17 * uCount g + 1) + 1 ≤ 34 * g.field_state.length + 3
    have hcl : uCount g ≤ g.field_state.length := by
      unfold uCount
      apply List.countP_le_length
    omega
  obtain ⟨g2, hloop, hI2⟩ := flood_master
    (FloodInv { g with state := GameState.Playing } R (x, y))
    (floodInv_step { g with state := GameState.Playing } R (x, y) hwf1 hseed1 hRzero1
      hRclosed1 hseedR hRU1 hBU1)
    (17 * uCount { g with state := GameState.Playing } + 1)
    { g with state := GameState.Playing } [(x, y)] hInit (Nat.le_refl _)
    (floodFuel { g with state := GameState.Playing }) hfuelB
  obtain ⟨hRmk, hBmk⟩ := floodInv_final { g with state := GameState.Playing } R (x, y)
    hwf1 hRzero1 hRclosed1 hhead hchain hBU1 g2 hI2
  have hcount1 : Game.neighbor_countE { g with state := GameState.Playing } x y
      = some 0 := by
    rw [hEqc]
    exact hzero
  have e : g.uncoverE x y = some (g2, g2.state) := by
    rcases hseed with hc | hc | hc
    · have hcR : Game.readIdxE { g with state := GameState.Playing } (y * g.width + x)
          = some (.Unknown false) := hc
      simp only [Game.uncoverE, if_neg hnl, hcR, hcount1]
      simp [hloop]
    · have hcR : Game.readIdxE { g with state := GameState.Playing } (y * g.width + x)
          = some (.Flagged false) := hc
      simp only [Game.uncoverE, if_neg hnl, hcR, hcount1]
      simp [hloop]
    · have hcR : Game.readIdxE { g with state := GameState.Playing } (y * g.width + x)
          = some (.Questioned false) := hc
      simp only [Game.uncoverE, if_neg hnl, hcR, hcount1]
      simp [hloop]
  have hst : g2.state = GameState.Playing := hI2.state_eq
  rw [hst] at e
  refine ⟨g2, e, hI2.width_eq, hI2.height_eq, hI2.len_eq, hRmk, ?_, ?_⟩
  · intro q hq
    obtain ⟨n, hn1, hn0, hcell⟩ := hBmk q hq
    have hng : g.neighbor_countE q.1 q.2 = some n := by
      rw [← hEqc]
      exact hn1
    obtain ⟨hgc, _⟩ := neighbor_count_ground g q.1 q.2 hwf
      (show inBounds g (q.1, q.2) from hq.1) hnk
    have hngc : n = g.groundCountE q.1 q.2 := by
      rw [hng] at hgc
      exact Option.some.inj hgc
    exact ⟨n, hng, hn0, hngc, hcell⟩
  · intro q hqB hqnR hqnBd
    exact hI2.out_frame q hqB hqnR hqnBd



-- ### Agreement of the faithful operations with the exact-index model:
-- on a well-formed board with at most 2^15 cells the 16-bit index
-- computation never wraps at in-bounds coordinates.

theorem rowIndexU_spec (g : Game) (xi yi : Int) (hwf : g.Wf)
    (hsize : g.width * g.height ≤ 32768) (hb : inBounds g (xi, yi)) :
    rowIndexU g.width yi xi = (yi * g.width + xi).toNat ∧
      rowIndexU g.width yi xi < g.field_state.length := by
  obtain ⟨hw, hw2, hh, hh2, hlen⟩ := hwf
  have hle := index_le hb
  obtain ⟨hx0, hxw, hy0, hyh⟩ := hb
  have hyw0 : 0 ≤ yi * g.width := mul_nonneg hy0 (by omega)
  have e1 : wrap16 (yi * g.width) = yi * g.width :=
    wrap16_eq_self (by omega) (by omega)
  constructor
  · unfold rowIndexU
    rw [e1]
    unfold usizeOfInt
    omega
  · unfold rowIndexU
    rw [e1]
    unfold usizeOfInt
    omega

theorem cellAt_agree (g : Game) (x y : Int) (hwf : g.Wf)
    (hsize : g.width * g.height ≤ 32768) (hb : inBounds g (x, y)) :
    g.cellAt x y = g.cellAtE x y := by
  have h := (i16Index_spec g x y hwf hsize hb).1
  unfold Game.cellAt Game.cellAtE Game.readIdxE
  rw [if_neg (by have := index_nonneg hb; omega), h]

theorem flatMap_congr {α β : Type} {l : List α} {f f2 : α → List β}
    (h : ∀ a ∈ l, f a = f2 a) : l.flatMap f = l.flatMap f2 := by
  induction l with
  | nil => rfl
  | cons a t ih =>
    simp only [List.flatMap_cons]
    rw [h a (by simp), ih (fun b hb => h b (by simp [hb]))]

theorem scanRow_agree (g : Game) (x y yi : Int) (hwf : g.Wf)
    (hsize : g.width * g.height ≤ 32768) (hb : inBounds g (x, y))
    (hyi0 : 0 ≤ yi) (hyih : yi < g.height) :
    g.scanRow x y yi = g.scanRowE x y yi := by
  unfold Game.scanRow Game.scanRowE
  congr 1
  apply List.filter_congr
  intro xi hxi
  rw [decide_eq_decide]
  by_cases hA : xi < 0 ∨ xi = g.width
  · constructor
    · rintro ⟨hA2, _⟩
      exact absurd hA hA2
    · rintro ⟨hA2, _⟩
      exact absurd hA hA2
  · push_neg at hA
    obtain ⟨hx0i, hxwi⟩ := hA
    have hxiB : inBounds g (xi, yi) := by
      simp only [List.mem_cons, List.not_mem_nil, or_false] at hxi
      obtain ⟨hx0, hxw, _, _⟩ := hb
      refine ⟨by omega, ?_, hyi0, hyih⟩
      show xi < g.width
      rcases hxi with rfl | rfl | rfl <;> omega
    have hr := (rowIndexU_spec g xi yi hwf hsize hxiB).1
    have hi := (i16Index_spec g x y hwf hsize hb).1
    rw [hr, hi]
    have h1 := index_nonneg hxiB
    have h2 := index_nonneg hb
    constructor
    · rintro ⟨hA2, hne⟩
      refine ⟨hA2, ?_⟩
      intro hEq
      exact hne (by rw [hEq])
    · rintro ⟨hA2, hne⟩
      refine ⟨hA2, ?_⟩
      intro hEq
      apply hne
      omega

theorem scanList_agree (g : Game) (x y : Int) (hwf : g.Wf)
    (hsize : g.width * g.height ≤ 32768) (hb : inBounds g (x, y)) :
    g.scanList x y = g.scanListE x y := by
  unfold Game.scanList Game.scanListE
  apply flatMap_congr
  intro yi hyi
  rw [List.mem_filter, decide_eq_true_eq] at hyi
  obtain ⟨hmem, hcond⟩ := hyi
  push_neg at hcond
  obtain ⟨hyi0, hyih⟩ := hcond
  have hyihlt : yi < g.height := by
    simp only [List.mem_cons, List.not_mem_nil, or_false] at hmem
    obtain ⟨_, _, _, hyh⟩ := hb
    rcases hmem with rfl | rfl | rfl <;> omega
  exact scanRow_agree g x y yi hwf hsize hb (by omega) hyihlt

theorem countScan_agree (g : Game) (hwf : g.Wf)
    (hsize : g.width * g.height ≤ 32768) :
    ∀ (l : List (Int × Int)) (acc : Nat), (∀ p ∈ l, inBounds g p) →
      countScan g l acc = countScanE g l acc := by
  intro l
  induction l with
  | nil =>
    intro acc _
    rfl
  | cons p ps ih =>
    intro acc hl
    have hp : inBounds g (p.1, p.2) := hl p (by simp)
    have hr := (rowIndexU_spec g p.1 p.2 hwf hsize hp).1
    have hread : g.field_state.get? (rowIndexU g.width p.2 p.1)
        = g.readIdxE (p.2 * g.width + p.1) := by
      unfold Game.readIdxE
      rw [if_neg (by have := index_nonneg hp; omega), hr]
    rw [countScan, countScanE, hread]
    cases hc : g.readIdxE (p.2 * g.width + p.1) with
    | none => rfl
    | some c => exact ih _ (fun q hq => hl q (by simp [hq]))

theorem pushScan_agree (g : Game) (hwf : g.Wf)
    (hsize : g.width * g.height ≤ 32768) :
    ∀ (l : List (Int × Int)) (acc : List (Int × Int)), (∀ p ∈ l, inBounds g p) →
      pushScan g l acc = pushScanE g l acc := by
  intro l
  induction l with
  | nil =>
    intro acc _
    rfl
  | cons p ps ih =>
    intro acc hl
    have hp : inBounds g (p.1, p.2) := hl p (by simp)
    have hr := (rowIndexU_spec g p.1 p.2 hwf hsize hp).1
    have hread : g.field_state.get? (rowIndexU g.width p.2 p.1)
        = g.readIdxE (p.2 * g.width + p.1) := by
      unfold Game.readIdxE
      rw [if_neg (by have := index_nonneg hp; omega), hr]
    rw [pushScan, pushScanE, hread]
    cases hc : g.readIdxE (p.2 * g.width + p.1) with
    | none => rfl
    | some c => exact ih _ (fun q hq => hl q (by simp [hq]))

theorem neighbor_count_agree (g : Game) (x y : Int) (hwf : g.Wf)
    (hsize : g.width * g.height ≤ 32768) (hb : inBounds g (x, y)) :
    g.neighbor_count x y = g.neighbor_countE x y := by
  unfold Game.neighbor_count Game.neighbor_countE
  rw [scanList_agree g x y hwf hsize hb]
  apply countScan_agree g hwf hsize
  intro p hp
  exact ((mem_scanList_iff hwf.1 hb).1 hp).2

theorem unknownNeighbors_agree (g : Game) (x y : Int) (hwf : g.Wf)
    (hsize : g.width * g.height ≤ 32768) (hb : inBounds g (x, y)) :
    g.unknownNeighbors x y = g.unknownNeighborsE x y := by
  unfold Game.unknownNeighbors Game.unknownNeighborsE
  rw [scanList_agree g x y hwf hsize hb]
  apply pushScan_agree g hwf hsize
  intro p hp
  exact ((mem_scanList_iff hwf.1 hb).1 hp).2

theorem writeIdxU_agree (g : Game) (x y : Int) (c : CellState) (hwf : g.Wf)
    (hsize : g.width * g.height ≤ 32768) (hb : inBounds g (x, y)) :
    g.writeIdxU (i16Index g.width x y) c = g.writeIdxE (y * g.width + x) c := by
  obtain ⟨hi, hlt⟩ := i16Index_spec g x y hwf hsize hb
  unfold Game.writeIdxU Game.writeIdxE
  rw [hi]
  rw [if_neg (by omega), if_neg (by have := index_nonneg hb; omega)]

theorem flag_agree (g : Game) (x y : Int) (hwf : g.Wf)
    (hsize : g.width * g.height ≤ 32768) (hb : inBounds g (x, y)) :
    g.flag x y = g.flagE x y := by
  obtain ⟨hi, hlt⟩ := i16Index_spec g x y hwf hsize hb
  obtain ⟨c, hcE, hcg⟩ := cellAt_isSome hwf hb
  have hcF : g.field_state.get? (i16Index g.width x y) = some c := by
    rw [hi]
    exact hcg
  have hcR : g.readIdxE (y * g.width + x) = some c := hcE
  unfold Game.flag Game.flagE
  rw [hcF, hcR, hi]

theorem question_agree (g : Game) (x y : Int) (hwf : g.Wf)
    (hsize : g.width * g.height ≤ 32768) (hb : inBounds g (x, y)) :
    g.question x y = g.questionE x y := by
  obtain ⟨hi, hlt⟩ := i16Index_spec g x y hwf hsize hb
  obtain ⟨c, hcE, hcg⟩ := cellAt_isSome hwf hb
  have hcF : g.field_state.get? (i16Index g.width x y) = some c := by
    rw [hi]
    exact hcg
  have hcR : g.readIdxE (y * g.width + x) = some c := hcE
  unfold Game.question Game.questionE
  rw [hcF, hcR, hi]

theorem set_unknown_agree (g : Game) (x y : Int) (hwf : g.Wf)
    (hsize : g.width * g.height ≤ 32768) (hb : inBounds g (x, y)) :
    g.set_unknown x y = g.set_unknownE x y := by
  obtain ⟨hi, hlt⟩ := i16Index_spec g x y hwf hsize hb
  obtain ⟨c, hcE, hcg⟩ := cellAt_isSome hwf hb
  have hcF : g.field_state.get? (i16Index g.width x y) = some c := by
    rw [hi]
    exact hcg
  have hcR : g.readIdxE (y * g.width + x) = some c := hcE
  unfold Game.set_unknown Game.set_unknownE
  rw [hcF, hcR, hi]

set_option maxHeartbeats 1000000 in
theorem floodLoop_agree :
    ∀ (fuel : Nat) (g : Game) (stack : List (Int × Int)), g.Wf →
      g.width * g.height ≤ 32768 → (∀ p ∈ stack, inBounds g p) →
      floodLoop g stack fuel = floodLoopE g stack fuel := by
  intro fuel
  induction fuel with
  | zero =>
    intro g stack _ _ _
    cases stack with
    | nil => rfl
    | cons p rest =>
      obtain ⟨px, py⟩ := p
      rfl
  | succ f ih =>
    intro g stack hwf hsize hstack
    cases stack with
    | nil => rfl
    | cons p rest =>
      obtain ⟨px, py⟩ := p
      have hp : inBounds g (px, py) := hstack (px, py) (by simp)
      have hcagree : Game.neighbor_count g px py = Game.neighbor_countE g px py :=
        neighbor_count_agree g px py hwf hsize hp
      have hcE := neighbor_count_some hwf hp
      cases hn : Game.neighbor_countE g px py with
      | none =>
        rw [hcE] at hn
        exact absurd hn (by simp)
      | some n =>
        have hcFn : g.neighbor_count px py = some n := by
          rw [hcagree]
          exact hn
        by_cases hz : n = 0
        · subst hz
          have hmwf : (g.mark (px, py) (.Known false)).Wf := mark_wf hwf _ _
          have hmb : inBounds (g.mark (px, py) (.Known false)) (px, py) := hp
          have hw2 : g.writeIdxU (i16Index g.width px py) (.Known false)
              = some (g.mark (px, py) (.Known false)) := by
            rw [writeIdxU_agree g px py (.Known false) hwf hsize hp]
            exact writeIdx_eq_mark _ hwf hp
          have hun : (g.mark (px, py) (.Known false)).unknownNeighbors px py
              = some ((g.mark (px, py) (.Known false)).pushesAt (px, py)) := by
            rw [unknownNeighbors_agree (g.mark (px, py) (.Known false)) px py hmwf hsize hmb]
            exact unknownNeighbors_eq hmwf hp
          have hFunf : floodLoop g ((px, py) :: rest) (f + 1)
              = floodLoop (g.mark (px, py) (.Known false))
                  (((g.mark (px, py) (.Known false)).pushesAt (px, py)).reverse ++ rest) f := by
            simp only [floodLoop, hcFn, hw2, hun, if_true]
          have hEunf := floodLoop_cons_zero rest hwf hp hn f
          rw [hFunf, hEunf]
          apply ih _ _ hmwf hsize
          intro q hq
          rcases List.mem_append.1 hq with hq | hq
          · exact ((mem_pushesAt hmwf hmb).1 (List.mem_reverse.1 hq)).2.1
          · exact hstack q (by simp [hq])
        · have hw2 : g.writeIdxU (i16Index g.width px py) (.Counted n)
              = some (g.mark (px, py) (.Counted n)) := by
            rw [writeIdxU_agree g px py (.Counted n) hwf hsize hp]
            exact writeIdx_eq_mark _ hwf hp
          have hFunf : floodLoop g ((px, py) :: rest) (f + 1)
              = floodLoop (g.mark (px, py) (.Counted n)) rest f := by
            simp only [floodLoop, hcFn, hw2, if_neg hz]
          have hEunf := floodLoop_cons_pos rest hwf hp hn hz f
          rw [hFunf, hEunf]
          apply ih _ _ (mark_wf hwf _ _) hsize
          intro q hq
          exact hstack q (by simp [hq])

set_option maxHeartbeats 1000000 in
theorem uncover_agree (g : Game) (x y : Int) (hwf : g.Wf)
    (hsize : g.width * g.height ≤ 32768) (hb : inBounds g (x, y)) :
    g.uncover x y = g.uncoverE x y := by
  by_cases hL : g.state = .Lost
  · unfold Game.uncover Game.uncoverE
    rw [if_pos hL, if_pos hL]
  · obtain ⟨c, hcE, hcg⟩ := cellAt_isSome hwf hb
    have hwf1 : Game.Wf { g with state := GameState.Playing } := hwf
    have hb1 : inBounds { g with state := GameState.Playing } (x, y) := hb
    have hsize1 : ({ g with state := GameState.Playing } : Game).width
        * ({ g with state := GameState.Playing } : Game).height ≤ 32768 := hsize
    obtain ⟨hi, hlt⟩ := i16Index_spec g x y hwf hsize hb
    have hcF : g.field_state.get? (i16Index g.width x y) = some c := by
      rw [hi]
      exact hcg
    have hcR : Game.readIdxE { g with state := GameState.Playing } (y * g.width + x)
        = some c := hcE
    have hcnt : Game.neighbor_count { g with state := GameState.Playing } x y
        = Game.neighbor_countE { g with state := GameState.Playing } x y :=
      neighbor_count_agree { g with state := GameState.Playing } x y hwf1 hsize1 hb1
    have hwrA : ∀ cc : CellState,
        Game.writeIdxU { g with state := GameState.Playing } (i16Index g.width x y) cc
          = Game.writeIdxE { g with state := GameState.Playing } (y * g.width + x) cc :=
      fun cc => writeIdxU_agree { g with state := GameState.Playing } x y cc hwf1 hsize1 hb1
    have hfl : floodLoop { g with state := GameState.Playing } [(x, y)]
          (floodFuel { g with state := GameState.Playing })
        = floodLoopE { g with state := GameState.Playing } [(x, y)]
          (floodFuel { g with state := GameState.Playing }) := by
      apply floodLoop_agree _ _ _ hwf1 hsize1
      intro p hp
      simp only [List.mem_singleton] at hp
      subst hp
      exact hb1
    simp only [Game.uncover, Game.uncoverE, if_neg hL, hcF, hcR]
    cases c with
    | Known b => rfl
    | Counted k => rfl
    | Unknown b =>
      cases b with
      | true => rw [hwrA (.Known true)]
      | false =>
        simp only [hcnt, hwrA, hfl]
    | Flagged b =>
      cases b with
      | true => rw [hwrA (.Known true)]
      | false =>
        simp only [hcnt, hwrA, hfl]
    | Questioned b =>
      cases b with
      | true => rw [hwrA (.Known true)]
      | false =>
        simp only [hcnt, hwrA, hfl]

theorem applyCmd_agree (g : Game) (c : Cmd) (hwf : g.Wf)
    (hsize : g.width * g.height ≤ 32768) (hin : c.inB g) :
    applyCmd g c = applyCmdE g c := by
  cases c with
  | uncover cx cy =>
    show (g.uncover cx cy).map (fun r => r.1) = (g.uncoverE cx cy).map (fun r => r.1)
    rw [uncover_agree g cx cy hwf hsize (hin (cx, cy) rfl)]
  | flag cx cy => exact flag_agree g cx cy hwf hsize (hin (cx, cy) rfl)
  | question cx cy => exact question_agree g cx cy hwf hsize (hin (cx, cy) rfl)
  | set_unknown cx cy => exact set_unknown_agree g cx cy hwf hsize (hin (cx, cy) rfl)
  | show_mined => rfl

theorem applyCmdE_step (g : Game) (c : Cmd) (hwf : g.Wf) (hc : c.inB g) :
    ∃ g1, applyCmdE g c = some g1 ∧ g1.width = g.width ∧ g1.height = g.height ∧
      g1.field_state.length = g.field_state.length := by
  cases c with
  | uncover cx cy =>
    obtain ⟨g1, s, he, hw, hh, _, _, hl, _, _, _⟩ := uncover_props g cx cy hwf (hc (cx, cy) rfl)
    refine ⟨g1, ?_, hw, hh, hl⟩
    show (g.uncoverE cx cy).map (fun r => r.1) = some g1
    rw [he]
    rfl
  | flag cx cy =>
    obtain ⟨g1, he, hw, hh, _, hl, _, _⟩ := flag_props g cx cy hwf (hc (cx, cy) rfl)
    exact ⟨g1, he, hw, hh, hl⟩
  | question cx cy =>
    obtain ⟨g1, he, hw, hh, _, hl, _, _⟩ := question_props g cx cy hwf (hc (cx, cy) rfl)
    exact ⟨g1, he, hw, hh, hl⟩
  | set_unknown cx cy =>
    obtain ⟨g1, he, hw, hh, _, hl, _, _⟩ := set_unknown_props g cx cy hwf (hc (cx, cy) rfl)
    exact ⟨g1, he, hw, hh, hl⟩
  | show_mined =>
    obtain ⟨hw, hh, _, hl, _, _⟩ := show_mined_props g
    exact ⟨g.show_mined, rfl, hw, hh, hl⟩

theorem runCmds_agree (g : Game) (cmds : List Cmd) (hwf : g.Wf)
    (hsize : g.width * g.height ≤ 32768) (hin : ∀ c ∈ cmds, c.inB g) :
    runCmds g cmds = runCmdsE g cmds := by
  induction cmds generalizing g with
  | nil => rfl
  | cons c cs ih =>
    obtain ⟨g1, he, hw, hh, hl⟩ := applyCmdE_step g c hwf (hin c (by simp))
    unfold runCmds runCmdsE
    rw [applyCmd_agree g c hwf hsize (hin c (by simp)), he]
    show runCmds g1 cs = runCmdsE g1 cs
    exact ih g1 (wf_of_frame hwf hw hh hl)
      (by rw [hw, hh]; exact hsize)
      (fun d hd => cmd_inB_congr hw hh (hin d (by simp [hd])))

theorem groundCount_agree (g : Game) (x y : Int) (hwf : g.Wf)
    (hsize : g.width * g.height ≤ 32768) :
    g.groundCount x y = g.groundCountE x y := by
  unfold Game.groundCount Game.groundCountE
  congr 1
  apply List.filter_congr
  intro q hq
  by_cases hqB : inBounds g q
  · rw [cellAt_agree g q.1 q.2 hwf hsize (show inBounds g (q.1, q.2) from hqB)]
  · simp [hqB]

theorem zeroCell_agree (g : Game) (p : Int × Int) (hwf : g.Wf)
    (hsize : g.width * g.height ≤ 32768) :
    zeroCell g p ↔ zeroCellE g p := by
  unfold zeroCell zeroCellE
  constructor
  · rintro ⟨hb, hc, hg⟩
    refine ⟨hb, ?_, ?_⟩
    · rw [← neighbor_count_agree g p.1 p.2 hwf hsize hb]
      exact hc
    · rw [← cellAt_agree g p.1 p.2 hwf hsize hb]
      exact hg
  · rintro ⟨hb, hc, hg⟩
    refine ⟨hb, ?_, ?_⟩
    · rw [neighbor_count_agree g p.1 p.2 hwf hsize hb]
      exact hc
    · rw [cellAt_agree g p.1 p.2 hwf hsize hb]
      exact hg

theorem regionSpec_agree (g : Game) (s : Int × Int) (R : List (Int × Int)) (hwf : g.Wf)
    (hsize : g.width * g.height ≤ 32768) :
    RegionSpec g s R ↔ RegionSpecE g s R := by
  unfold RegionSpec RegionSpecE RegionClosed RegionClosedE
  constructor
  · rintro ⟨h1, h2, h3⟩
    refine ⟨h1, fun p hp => (zeroCell_agree g p hwf hsize).1 (h2 p hp), ?_⟩
    intro p hp q hq hqB hqz
    exact h3 p hp q hq hqB ((zeroCell_agree g q hwf hsize).2 hqz)
  · rintro ⟨h1, h2, h3⟩
    refine ⟨h1, fun p hp => (zeroCell_agree g p hwf hsize).2 (h2 p hp), ?_⟩
    intro p hp q hq hqB hqz
    exact h3 p hp q hq hqB ((zeroCell_agree g q hwf hsize).1 hqz)

theorem reachZero_agree (g : Game) (s q : Int × Int) (hwf : g.Wf)
    (hsize : g.width * g.height ≤ 32768) :
    ReachZero g s q ↔ ReachZeroE g s q := by
  unfold ReachZero ReachZeroE
  constructor
  · intro h
    exact Relation.ReflTransGen.mono
      (fun a b hab => ⟨hab.1, (zeroCell_agree g b hwf hsize).1 hab.2⟩) h
  · intro h
    exact Relation.ReflTransGen.mono
      (fun a b hab => ⟨hab.1, (zeroCell_agree g b hwf hsize).2 hab.2⟩) h

-- ### C3

/-- C3 (amended): on a board with at most 2^15 cells and no revealed mine
(`Known(true)` cell), `neighbor_count` at an in-bounds coordinate returns
exactly the number of in-bounds surrounding cells whose ground truth is
mined, and that number is at most 8.  Two amendments are forced: boards
with a `Known(true)` cell are excluded (the source counts only
`Unknown(true)`, `Questioned(true)` and `Flagged(true)` wrappers, so a
revealed mine is invisible to the count), and the cell count is bounded
by 32768 (on a larger board the source's 16-bit row index wraps and the
count panics, see C8). -/
theorem c3_neighbor_count (g : Game) (x y : Int) (hwf : g.Wf)
    (hsize : g.width * g.height ≤ 32768) (hb : inBounds g (x, y))
    (hnk : ∀ c ∈ g.field_state, c ≠ CellState.Known true) :
    g.neighbor_count x y = some (g.groundCount x y) ∧ g.groundCount x y ≤ 8 := by
  rw [neighbor_count_agree g x y hwf hsize hb, groundCount_agree g x y hwf hsize]
  exact neighbor_count_ground g x y hwf hb hnk

/-- C3 counterexample: on a 2×1 board whose first cell is a revealed
mine `Known(true)`, the code's `neighbor_count` at (1, 0) is 0 although
the ground truth of the surrounding cell is mined (true count 1). -/
theorem c3_neighbor_count_cex :
    gC3cex.field_state.get? 0 = some (CellState.Known true) ∧
      groundMined (CellState.Known true) = true ∧
      gC3cex.neighbor_count 1 0 = some 0 ∧ gC3cex.groundCount 1 0 = 1 ∧
      gC3cex.neighbor_count 1 0 ≠ some (gC3cex.groundCount 1 0) := by
  refine ⟨rfl, rfl, by decide, by decide, by decide⟩

theorem c3_neighbor_count_witness :
    gC3w.neighbor_count 1 0 = some (gC3w.groundCount 1 0) ∧ gC3w.groundCount 1 0 ≤ 8 :=
  c3_neighbor_count gC3w 1 0 (by decide) (by decide) (by decide) (by decide)

-- ### C4

/-- C4 (amended): on a board with at most 2^15 cells and an in-bounds
(x, y), `flag` turns an `Unknown(m)`/`Questioned(m)` cell into
`Flagged(m)` and decrements `remaining` with a floor at 0 (never
negative — `remaining` is a `u16`, modelled by the truncated `Nat`
subtraction); any other cell state is a no-op on the cells and the
counter; and the phase is always set to `Playing`, whatever it was
(including `Lost`).  The amendment bounds the cell count: on a larger
board (e.g. 200×200) the source's 16-bit index computation wraps for
some in-bounds cells and `flag` panics there instead. -/
theorem c4_flag (g : Game) (x y : Int) (hwf : g.Wf)
    (hsize : g.width * g.height ≤ 32768) (hb : inBounds g (x, y)) :
    ∃ g', g.flag x y = some g' ∧ g'.state = .Playing ∧ g'.width = g.width ∧
      g'.height = g.height ∧ g'.total = g.total ∧
      (∀ m, (g.cellAt x y = some (.Unknown m) ∨ g.cellAt x y = some (.Questioned m)) →
        g'.field_state = g.field_state.set (y * g.width + x).toNat (.Flagged m) ∧
        g'.remaining = g.remaining - 1) ∧
      ((∀ m, ¬ g.cellAt x y = some (.Unknown m) ∧ ¬ g.cellAt x y = some (.Questioned m)) →
        g'.field_state = g.field_state ∧ g'.remaining = g.remaining) := by
  have hca : g.cellAt x y = g.cellAtE x y := cellAt_agree g x y hwf hsize hb
  obtain ⟨g', he, h1, h2, h3, h4, h5, h6⟩ := flagE_cases g x y hwf hb
  refine ⟨g', ?_, h1, h2, h3, h4, ?_, ?_⟩
  · rw [flag_agree g x y hwf hsize hb]
    exact he
  · intro m hm
    rw [hca] at hm
    exact h5 m hm
  · intro hno
    rw [hca] at hno
    exact h6 hno

/-- C4 counterexample: on the well-formed 200×200 board the 16-bit index
of the in-bounds cell (199, 199) wraps to a huge `usize`, so the source's
`flag` panics there instead of flagging the cell — the claim fails
without a bound on the cell count. -/
theorem c4_flag_cex :
    g200.Wf ∧ inBounds g200 (199, 199) ∧ Game.flag g200 199 199 = none := by
  have hl : g200.field_state.length = 40000 := by
    show (List.replicate 40000 (CellState.Unknown false)).length = 40000
    rw [List.length_replicate]
  refine ⟨⟨by decide, by decide, by decide, by decide, ?_⟩, by decide, ?_⟩
  · rw [hl]
    decide
  · have hi : i16Index g200.width 199 199 = 18446744073709526079 := by decide
    have hnone : g200.field_state.get? 18446744073709526079 = none := by
      apply List.get?_eq_none.2
      rw [hl]
      decide
    unfold Game.flag
    rw [hi, hnone]

theorem c4_flag_witness :
    ∃ g', gFlag4.flag 0 0 = some g' ∧ g'.state = .Playing ∧ g'.remaining = 0 := by
  obtain ⟨g', h1, h2, _, _, _, hop, _⟩ :=
    c4_flag gFlag4 0 0 (by decide) (by decide) (by decide)
  obtain ⟨_, hrem⟩ := hop false (Or.inl (by decide))
  exact ⟨g', h1, h2, by rw [hrem]; rfl⟩

-- ### C5

/-- C5 (amended): on a board with at most 2^15 cells, for an in-bounds
`Unknown(m)` cell and `remaining ≥ 1`, the sequence
`flag; question; set_unknown` returns `remaining` to its original value
(flag decrements by one, question on the now-flagged cell increments by
one, set_unknown on the now-questioned cell leaves the counter
unchanged).  Two amendments are forced: `remaining ≥ 1` (from
`remaining = 0` the flag step is floored and the cycle ends at
`remaining = 1`), and the cell-count bound (on a larger board the 16-bit
index wraps for some in-bounds cells and the operations panic, see
C8). -/
theorem c5_flag_cycle (g : Game) (x y : Int) (m : Bool) (hwf : g.Wf)
    (hsize : g.width * g.height ≤ 32768) (hb : inBounds g (x, y))
    (hcell : g.cellAt x y = some (.Unknown m)) (hrem : 0 < g.remaining) :
    ∃ g1 g2 g3, g.flag x y = some g1 ∧ g1.question x y = some g2 ∧
      g2.set_unknown x y = some g3 ∧ g1.remaining = g.remaining - 1 ∧
      g2.remaining = g.remaining ∧ g3.remaining = g.remaining := by
  rw [cellAt_agree g x y hwf hsize hb] at hcell
  obtain ⟨g1, g2, g3, e1, e2, e3, r1, r2, r3⟩ := flagE_cycle g x y m hwf hb hcell hrem
  obtain ⟨g1p, he1p, hw1, hh1, _, hl1, _, _⟩ := flag_props g x y hwf hb
  rw [e1] at he1p
  obtain rfl := Option.some.inj he1p
  have hwf1 : g1.Wf := wf_of_frame hwf hw1 hh1 hl1
  have hsize1 : g1.width * g1.height ≤ 32768 := by
    rw [hw1, hh1]
    exact hsize
  have hb1 : inBounds g1 (x, y) := (inBounds_eq_of hw1 hh1 (x, y)).2 hb
  obtain ⟨g2p, he2p, hw2, hh2, _, hl2, _, _⟩ := question_props g1 x y hwf1 hb1
  rw [e2] at he2p
  obtain rfl := Option.some.inj he2p
  have hwf2 : g2.Wf := wf_of_frame hwf1 hw2 hh2 hl2
  have hsize2 : g2.width * g2.height ≤ 32768 := by
    rw [hw2, hh2]
    exact hsize1
  have hb2 : inBounds g2 (x, y) := (inBounds_eq_of hw2 hh2 (x, y)).2 hb1
  refine ⟨g1, g2, g3, ?_, ?_, ?_, r1, r2, r3⟩
  · rw [flag_agree g x y hwf hsize hb]
    exact e1
  · rw [question_agree g1 x y hwf1 hsize1 hb1]
    exact e2
  · rw [set_unknown_agree g2 x y hwf2 hsize2 hb2]
    exact e3

/-- C5 counterexample: on a 1×1 board with `remaining = 0` (exactly what
`Game::new(1, 1)` produces) and a covered safe cell, the cycle
`flag; question; set_unknown` ends with `remaining = 1 ≠ 0`. -/
theorem c5_flag_cycle_cex :
    gZero5.remaining = 0 ∧ gZero5.cellAt 0 0 = some (.Unknown false) ∧
      (do
        let g1 ← gZero5.flag 0 0
        let g2 ← g1.question 0 0
        let g3 ← g2.set_unknown 0 0
        pure g3.remaining) = some 1 := by
  refine ⟨rfl, by decide, by decide⟩

theorem c5_flag_cycle_witness :
    ∃ g1 g2 g3, gRem5.flag 0 0 = some g1 ∧ g1.question 0 0 = some g2 ∧
      g2.set_unknown 0 0 = some g3 ∧ g1.remaining = 0 ∧
      g2.remaining = 1 ∧ g3.remaining = 1 := by
  obtain ⟨g1, g2, g3, h1, h2, h3, h4, h5, h6⟩ :=
    c5_flag_cycle gRem5 0 0 false (by decide) (by decide) (by decide) (by decide) (by decide)
  exact ⟨g1, g2, g3, h1, h2, h3, h4, h5, h6⟩

-- ### C6

/-- C6 (amended): on a freshly constructed board (phase `Initial`, every
cell still covered as `Unknown(m)`, cell count at most 2^15 — any larger
request makes the generation loop of `new` diverge, see C9), `uncover`,
`flag` and `question` each put the board in phase `Playing` (or `Lost`
when the uncovered cell was mined) — but `set_unknown`, contrary to the
claim, never touches the phase, so it leaves the board in phase
`Initial`. -/
theorem c6_first_action (g : Game) (x y : Int) (hwf : g.Wf)
    (hsize : g.width * g.height ≤ 32768) (hini : g.state = .Initial)
    (hfresh : ∀ c ∈ g.field_state, ∃ m, c = CellState.Unknown m) (hb : inBounds g (x, y)) :
    (∃ g', g.flag x y = some g' ∧ g'.state = .Playing) ∧
    (∃ g', g.question x y = some g' ∧ g'.state = .Playing) ∧
    (∃ g', g.set_unknown x y = some g' ∧ g'.state = .Initial) ∧
    (∀ m, g.cellAt x y = some (.Unknown m) →
      ∃ g', g.uncover x y = some (g', if m then .Lost else .Playing) ∧
        g'.state = (if m then GameState.Lost else GameState.Playing)) := by
  obtain ⟨hA, hB, hC, hD⟩ := first_action_core g x y hwf hini hfresh hb
  refine ⟨?_, ?_, ?_, ?_⟩
  · rw [flag_agree g x y hwf hsize hb]
    exact hA
  · rw [question_agree g x y hwf hsize hb]
    exact hB
  · rw [set_unknown_agree g x y hwf hsize hb]
    exact hC
  · intro m hm
    rw [cellAt_agree g x y hwf hsize hb] at hm
    rw [uncover_agree g x y hwf hsize hb]
    exact hD m hm

/-- C6 counterexample: on a fresh 2×1 board in phase `Initial`,
`set_unknown` at the in-bounds covered cell (0, 0) leaves the phase at
`Initial`, not `Playing` — the source's `set_unknown` never assigns
`self.state`. -/
theorem c6_first_action_cex :
    gInit6.state = GameState.Initial ∧ gInit6.Wf ∧ inBounds gInit6 (0, 0) ∧
      (∀ c ∈ gInit6.field_state, ∃ m, c = CellState.Unknown m) ∧
      (gInit6.set_unknown 0 0).map Game.state = some GameState.Initial ∧
      (gInit6.set_unknown 0 0).map Game.state ≠ some GameState.Playing := by
  exact ⟨rfl, by decide, by decide, by decide, by decide, by decide⟩

theorem c6_first_action_witness :
    (∃ g', gInit6.set_unknown 0 0 = some g' ∧ g'.state = .Initial) ∧
    (∃ g', gInit6.flag 0 0 = some g' ∧ g'.state = .Playing) ∧
    (∃ g', gInit6.uncover 1 0 = some (g', GameState.Lost) ∧ g'.state = GameState.Lost) := by
  obtain ⟨h1, _, h3, _⟩ := c6_first_action gInit6 0 0 (by decide) (by decide) (by decide)
    (by decide) (by decide)
  obtain ⟨_, _, _, h4b⟩ := c6_first_action gInit6 1 0 (by decide) (by decide) (by decide)
    (by decide) (by decide)
  obtain ⟨g', hg1, hg2⟩ := h4b true (by decide)
  exact ⟨h3, h1, ⟨g', hg1, hg2⟩⟩

-- ### C7

/-- C7: ground truth is immutable: running any sequence of in-bounds
`uncover`/`flag`/`question`/`set_unknown`/`show_mined` commands on a
well-formed board with at most 2^15 cells succeeds and preserves, cell
by cell, whether the cell's state denotes a mine (`Counted` counting as
non-mined).  The cell-count hypothesis is the faithful reading of the
claim's "board produced by `new` or `reset`": for any substantially
larger request the density polynomial demands more mines than there are
cells, so the generation loop never terminates (see C9) and no such
board is ever produced. -/
theorem c7_ground_truth (g : Game) (cmds : List Cmd) (hwf : g.Wf)
    (hsize : g.width * g.height ≤ 32768) (hin : ∀ c ∈ cmds, c.inB g) :
    ∃ g', runCmds g cmds = some g' ∧
      g'.field_state.length = g.field_state.length ∧
      ∀ i : Nat, (g'.field_state.get? i).map groundMined
        = (g.field_state.get? i).map groundMined := by
  rw [runCmds_agree g cmds hwf hsize hin]
  exact ground_truth_core g cmds hwf hin

theorem c7_ground_truth_witness :
    ∃ g', runCmds gRun7 cmds7 = some g' ∧
      (g'.field_state.get? 0).map groundMined = some true ∧
      (g'.field_state.get? 1).map groundMined = some false := by
  obtain ⟨g', hrun, _, hm⟩ := c7_ground_truth gRun7 cmds7 (by decide) (by decide) (by decide)
  refine ⟨g', hrun, ?_, ?_⟩
  · rw [hm 0]
    rfl
  · rw [hm 1]
    rfl

-- ### C1

/-- C1 (amended): take a board with at most 2^15 cells that is not lost,
an in-bounds click at a covered safe cell (`Unknown(false)`,
`Flagged(false)` or `Questioned(false)`) with neighbour count zero, and
a list `R` certified to be the maximal 8-connected region of zero-count
safe cells containing the click (`RegionSpec`), on a board with no
revealed mine.  Provided — this is the amendment — every other cell of
that region and every cell of its border ring is exactly
`Unknown(false)`, a single `uncover` call reveals the entire region as
`Known(false)`, rewrites exactly the border ring to `Counted(n)` with
the correct (ground-truth) neighbour mine counts, and leaves every cell
outside the closure unchanged.  The cell-count bound is also forced: on
a larger board the 16-bit index arithmetic wraps and the flood panics.
The first conjunct certifies that `R` really is the maximal region
(membership in `R` coincides with reachability through zero-count safe
cells). -/
theorem c1_flood_reveal (g : Game) (x y : Int) (R : List (Int × Int))
    (hwf : g.Wf) (hsize : g.width * g.height ≤ 32768) (hb : inBounds g (x, y))
    (hnl : ¬ g.state = GameState.Lost)
    (hseed : g.cellAt x y = some (.Unknown false) ∨ g.cellAt x y = some (.Flagged false) ∨
      g.cellAt x y = some (.Questioned false))
    (hzero : g.neighbor_count x y = some 0)
    (hspec : RegionSpec g (x, y) R)
    (hRU : ∀ p ∈ R, p ≠ (x, y) → g.cellAt p.1 p.2 = some (.Unknown false))
    (hBUl : ∀ r ∈ R, ∀ q ∈ nbrs r, q ∉ R → inBounds g q →
      g.cellAt q.1 q.2 = some (.Unknown false))
    (hnk : ∀ c ∈ g.field_state, c ≠ CellState.Known true) :
    (∀ q, q ∈ R ↔ ReachZero g (x, y) q) ∧
    ∃ g', g.uncover x y = some (g', GameState.Playing) ∧
      g'.width = g.width ∧ g'.height = g.height ∧
      g'.field_state.length = g.field_state.length ∧
      (∀ p ∈ R, g'.cellAt p.1 p.2 = some (.Known false)) ∧
      (∀ q, IsBorder g R q → ∃ n, g.neighbor_count q.1 q.2 = some n ∧ n ≠ 0 ∧
        n = g.groundCount q.1 q.2 ∧ g'.cellAt q.1 q.2 = some (.Counted n)) ∧
      (∀ q, inBounds g q → q ∉ R → ¬ IsBorder g R q →
        g'.cellAt q.1 q.2 = g.cellAt q.1 q.2) := by
  have hRin : ∀ p ∈ R, inBounds g p := by
    intro p hp
    exact (hspec.2.1 p hp).1
  rw [cellAt_agree g x y hwf hsize hb] at hseed
  rw [neighbor_count_agree g x y hwf hsize hb] at hzero
  rw [regionSpec_agree g (x, y) R hwf hsize] at hspec
  have hRU2 : ∀ p ∈ R, p ≠ (x, y) → g.cellAtE p.1 p.2 = some (.Unknown false) := by
    intro p hp hne
    rw [← cellAt_agree g p.1 p.2 hwf hsize (show inBounds g (p.1, p.2) from hRin p hp)]
    exact hRU p hp hne
  have hBUl2 : ∀ r ∈ R, ∀ q ∈ nbrs r, q ∉ R → inBounds g q →
      g.cellAtE q.1 q.2 = some (.Unknown false) := by
    intro r hr q hq hqn hqB
    rw [← cellAt_agree g q.1 q.2 hwf hsize (show inBounds g (q.1, q.2) from hqB)]
    exact hBUl r hr q hq hqn hqB
  obtain ⟨hchar, g', he, hw, hh, hl, hreg, hbor, hout⟩ :=
    flood_reveal_core g x y R hwf hb hnl hseed hzero hspec hRU2 hBUl2 hnk
  have hwf2 : g'.Wf := wf_of_frame hwf hw hh hl
  have hsize2 : g'.width * g'.height ≤ 32768 := by
    rw [hw, hh]
    exact hsize
  refine ⟨?_, g', ?_, hw, hh, hl, ?_, ?_, ?_⟩
  · intro q
    rw [reachZero_agree g (x, y) q hwf hsize]
    exact hchar q
  · rw [uncover_agree g x y hwf hsize hb]
    exact he
  · intro p hp
    rw [cellAt_agree g' p.1 p.2 hwf2 hsize2
      ((inBounds_eq_of hw hh (p.1, p.2)).2 (show inBounds g (p.1, p.2) from hRin p hp))]
    exact hreg p hp
  · intro q hq
    obtain ⟨n, hn, hn0, hng, hc⟩ := hbor q hq
    have hqB : inBounds g q := hq.1
    refine ⟨n, ?_, hn0, ?_, ?_⟩
    · rw [neighbor_count_agree g q.1 q.2 hwf hsize (show inBounds g (q.1, q.2) from hqB)]
      exact hn
    · rw [groundCount_agree g q.1 q.2 hwf hsize]
      exact hng
    · rw [cellAt_agree g' q.1 q.2 hwf2 hsize2
        ((inBounds_eq_of hw hh (q.1, q.2)).2 (show inBounds g (q.1, q.2) from hqB))]
      exact hc
  · intro q hqB hqn hqb
    rw [cellAt_agree g' q.1 q.2 hwf2 hsize2
        ((inBounds_eq_of hw hh (q.1, q.2)).2 (show inBounds g (q.1, q.2) from hqB)),
      cellAt_agree g q.1 q.2 hwf hsize (show inBounds g (q.1, q.2) from hqB)]
    exact hout q hqB hqn hqb

/-- C1 counterexample: on a 2×1 safe board whose second cell is
`Flagged(false)`, the click at (0, 0) has zero count and (1, 0) lies in
the maximal zero region (it is reachable through zero-count safe cells),
yet after `uncover(0, 0)` the cell (1, 0) is still `Flagged(false)`, not
`Known(false)`: the flood pushes only `Unknown(false)` neighbours, so the
unqualified claim is false. -/
theorem c1_flood_reveal_cex :
    gC1cex.cellAt 0 0 = some (CellState.Unknown false) ∧
    gC1cex.neighbor_count 0 0 = some 0 ∧
    ReachZero gC1cex (0, 0) (1, 0) ∧
    ∃ g', gC1cex.uncover 0 0 = some (g', GameState.Playing) ∧
      g'.cellAt 1 0 = some (CellState.Flagged false) :=
  ⟨by decide, by decide, Relation.ReflTransGen.single (by decide),
   ⟨{ width := 2, height := 1, state := .Playing,
      field_state := [.Known false, .Flagged false], total := 0, remaining := 0 },
    by decide, by decide⟩⟩

/-- C1 witness: the amended theorem applied to the 5×5 board of the
source's `test_uncover_simple` unit test, clicked at (2, 0): the region
{(2,0), (2,1)} is revealed `Known(false)` and border cell (1, 1) becomes
`Counted(2)`, matching the test's assertions. -/
theorem c1_flood_reveal_witness :
    ∃ g', gC1.uncover 2 0 = some (g', GameState.Playing) ∧
      g'.cellAt 2 0 = some (CellState.Known false) ∧
      g'.cellAt 2 1 = some (CellState.Known false) ∧
      g'.cellAt 1 1 = some (CellState.Counted 2) := by
  obtain ⟨hchar, g', he, hw, hh, hl, hR, hB, hout⟩ :=
    c1_flood_reveal gC1 2 0 rC1 (by decide) (by decide) (by decide) (by decide)
      (by decide) (by decide) (by decide) (by decide) (by decide) (by decide)
  refine ⟨g', he, hR (2, 0) (by decide), hR (2, 1) (by decide), ?_⟩
  obtain ⟨n, hn, hn0, hng, hc⟩ := hB (1, 1) (by decide)
  have h2 : gC1.neighbor_count 1 1 = some 2 := by decide
  rw [hn] at h2
  rw [Option.some.inj h2] at hc
  exact hc
